import Mathlib

/-!
Verification of `search-param-combinators`: a bidirectional (parse/serialize)
combinator library over URL search parameters.

The shallow embedding below translates, from the TypeScript sources:
  * `Result<T>` and its operations (src/src/Result.ts),
  * `SearchParamContext` — the per-key cursor state (src/unnamed/part_000),
  * `SearchParamMapping` and its composition operators
    (src/src/SearchParamMapping.ts),
  * `PartialResult` (src/unnamed/part_002),
  * the combinators `PrimitiveParam`, `StringParam`, `IntegerParam`,
    `NumberParam`, `EnumParam`, `ConstParam`, `OptionalParam`, `DefaultParam`,
    `ArrayParam`, `ObjectParam` and `runParse` (src/src/Combinators.ts).

JavaScript-specific behaviour is embedded explicitly:
  * a parse outcome is `POut`: a normal `(context, result)` pair, an uncaught
    exception (`thrown`), or non-termination (`diverge`, reached through an
    explicit fuel bound on the self-recursive array parser);
  * records (`Record<string, _>`) are association lists with first-occurrence
    lookup and in-place update;
  * `URLSearchParams` is a list of key/value pairs in append order;
  * the external percent-encode/decode service (`encodeURIComponent` /
    `decodeURIComponent`) is modelled concretely on ASCII with the properties
    the spec assumes: exact inverses on valid input, an error (a thrown
    `URIError` in JS) on a malformed percent sequence;
  * `parseInt` / `Number.prototype.toString` are modelled for base-10 input.
-/

/-! ## Result algebra (src/src/Result.ts) -/

/-- `Result<T>`: tagged variant over success/warning/error, from src/src/Result.ts. -/
inductive Result (T : Type) where
  | success (data : T)
  | warning (data : T) (warnings : List String)
  | error (errors : List String) (warnings : List String)
deriving DecidableEq, Repr

/-- `SuccessResult` constructor function. -/
def SuccessResult {T : Type} (data : T) : Result T := .success data

/-- `WarningResult(data, warning0, ...warnings)`. -/
def WarningResult {T : Type} (data : T) (warning0 : String) (warnings : List String := []) : Result T :=
  .warning data (warning0 :: warnings)

/-- `ErrorResult(error0, ...errors)`: the warning list starts empty. -/
def ErrorResult {T : Type} (error0 : String) (errors : List String := []) : Result T :=
  .error (error0 :: errors) []

namespace Result

/-- `Result.map`: applies `f` to the payload of success/warning, propagates error unchanged. -/
def map {U V : Type} (f : U → V) : Result U → Result V
  | .error es ws => .error es ws
  | .warning d ws => .warning (f d) ws
  | .success d => .success (f d)

/-- `Result.flatten`: collapses `Result<Result<U>>`, merging warning lists outer-first. -/
def flatten {U : Type} : Result (Result U) → Result U
  | .error es ws => .error es ws
  | .success d => d
  | .warning d ws =>
    match d with
    | .error es ws2 => .error es (ws ++ ws2)
    | .warning d2 ws2 => .warning d2 (ws ++ ws2)
    | .success d2 => .warning d2 ws

/-- `Result.bind = flatten ∘ map`. -/
def bind {U V : Type} (f : U → Result V) (ru : Result U) : Result V :=
  flatten (map f ru)

/-- `Result.map2`: applicative combination, as written in the source
(`flatten(map(u2 => map(u1 => fn(u1, u2), ru1), ru2))`). -/
def map2 {U1 U2 V : Type} (fn : U1 → U2 → V) (ru1 : Result U1) (ru2 : Result U2) : Result V :=
  flatten (map (fun u2 => map (fun u1 => fn u1 u2) ru1) ru2)

/-- `Result.either`: disjunction of alternative branches (src/src/Result.ts lines 91-138),
including the source's exact warning texts (one of which carries a typo). -/
def either {U : Type} (a : Result U) (b : Result U) : Result U :=
  match a with
  | .error aes aws =>
    match b with
    | .error bes bws =>
      .error ("Both parse branches encountered errors." :: (aes ++ bes)) (aws ++ bws)
    | b => b
  | .success ad =>
    match b with
    | .error _ _ => .success ad
    | .warning _ bws =>
      .warning ad ("Both parse branches produced valid data, returned value with fewer warnings." :: bws)
    | .success _ =>
      .warning ad ["Both parse branches produced valid data, returned value may be arbitrary."]
  | .warning ad aws =>
    match b with
    | .error _ _ => .warning ad aws
    | .success bd =>
      .warning bd ("Both parse branches produced valid data, returned value with fewer warnings." :: aws)
    | .warning _ bws =>
      .warning ad ("Both parse branches produced valid datareturned value may be arbitrary." :: (aws ++ bws))

/-- `Result.split`. -/
def split {U V : Type} (ruv : Result (U × V)) : Result U × Result V :=
  (map (fun x => x.1) ruv, map (fun x => x.2) ruv)

/-- `Result.withDefault`. -/
def withDefault {U : Type} (ru : Result U) (defaultValue : U) : U :=
  match ru with
  | .error _ _ => defaultValue
  | .warning d _ => d
  | .success d => d

/-- Modelled from the spec: `Result.addWarnings` is called by `runParse`
(src/src/Combinators.ts line 495) but its definition is not among the provided
sources. Per the spec the top-level parse "folds in a synthetic warning per
leftover unconsumed key": adding a non-empty batch of warnings demotes a
success to a warning and accumulates onto existing warning lists; adding no
warnings leaves the result unchanged. -/
def addWarnings {T : Type} : Result T → List String → Result T
  | r, [] => r
  | .success d, ws => .warning d ws
  | .warning d ws0, ws => .warning d (ws0 ++ ws)
  | .error es ws0, ws => .error es (ws0 ++ ws)

/-- The payload, when the result carries one. -/
def dataOf {T : Type} : Result T → Option T
  | .success d => some d
  | .warning d _ => some d
  | .error _ _ => none

/-- Whether a result is in the error state. -/
def isError {T : Type} : Result T → Bool
  | .error _ _ => true
  | _ => false

end Result

/-! ## JavaScript record / URLSearchParams primitives -/

/-- JS record lookup (`record[key]`), modelled on an association list:
first matching entry wins, absent key is `undefined` (`none`). -/
def lookupA {α : Type} (l : List (String × α)) (k : String) : Option α :=
  match l with
  | [] => none
  | (k2, v) :: rest => if k2 = k then some v else lookupA rest k

/-- JS record update (`record[key] = v`) on a record known to contain `key`:
replaces the first matching entry in place (appends when absent, which the
source never does because it checks membership first). -/
def setA {α : Type} (l : List (String × α)) (k : String) (v : α) : List (String × α) :=
  match l with
  | [] => [(k, v)]
  | (k2, w) :: rest => if k2 = k then (k2, v) :: rest else (k2, w) :: setA rest k v

/-- `URLSearchParams` is modelled as its list of key/value pairs in append
order; `getAll(key)` returns all values of `key` in that order. -/
def getAllP (pairs : List (String × String)) (k : String) : List String :=
  (pairs.filter (fun kv => kv.1 = k)).map (fun kv => kv.2)

/-- The distinct keys of a pair list, in first-occurrence order
(the iteration order of `[...params.keys()]` after the repeated
assignments in `fromUrlSearchParams` have been deduplicated). -/
def dedupKeys : List String → List String
  | [] => []
  | k :: rest => k :: (dedupKeys rest).filter (fun k2 => k2 ≠ k)

/-! ## SearchParamContext (src/unnamed/part_000) -/

/-- The consumption context: a per-key cursor (`progress`) over the fixed
multi-valued input (`valueMap`). -/
structure SearchParamContext where
  progress : List (String × Nat)
  valueMap : List (String × List String)
deriving DecidableEq, Repr

namespace SearchParamContext

/-- `SearchParamContext.fromUrlSearchParams`: every key of the input gets its
full value sequence and a cursor at 0. -/
def fromUrlSearchParams (params : List (String × String)) : SearchParamContext :=
  let ks := dedupKeys (params.map (fun kv => kv.1))
  { progress := ks.map (fun k => (k, 0))
    valueMap := ks.map (fun k => (k, getAllP params k)) }

/-- `SearchParamContext.get`: read the next unread occurrence of `key`,
advancing the cursor. The cursor advances even when the slot is past the end
of the sequence (the failed read is counted as consumed); an entirely absent
key returns the context unchanged. -/
def get (c : SearchParamContext) (key : String) : SearchParamContext × Result String :=
  match lookupA c.progress key, lookupA c.valueMap key with
  | some nextIndex, some nextValues =>
    let nextContext : SearchParamContext :=
      { progress := setA c.progress key (nextIndex + 1), valueMap := c.valueMap }
    match nextValues[nextIndex]? with
    | some nextValue => (nextContext, SuccessResult nextValue)
    | none =>
      let idx1 := nextIndex + 1
      let len := nextValues.length
      (nextContext, ErrorResult s!"Could not find #{idx1} value of search parameter [{key}]. [{key}] only has {len} values.")
  | _, _ => (c, ErrorResult s!"Required search parameter [{key}] was not found.")

/-- `remainingKeys()`: keys whose cursor is still short of the sequence length. -/
def remainingKeys (c : SearchParamContext) : List String :=
  ((c.valueMap.map (fun kv => kv.1)).filter
    (fun k => (lookupA c.progress k).getD 0 < ((lookupA c.valueMap k).getD []).length))

/-- The unread suffix of `key`'s value sequence (derived notion used in proofs). -/
def unread (c : SearchParamContext) (key : String) : List String :=
  ((lookupA c.valueMap key).getD []).drop ((lookupA c.progress key).getD 0)

/-- Total number of unread occurrences across all keys (derived; used as the
fuel measure for the self-recursive array parser). -/
def totalUnread (c : SearchParamContext) : Nat :=
  (c.valueMap.map (fun kv => kv.2.length - min ((lookupA c.progress kv.1).getD 0) kv.2.length)).sum

end SearchParamContext

/-! ## Parse outcomes and the Mapping abstraction (src/src/SearchParamMapping.ts) -/

/-- Outcome of running a parse function. TypeScript parse functions return a
`[Params, Result<T>]` pair; in addition a JS computation can end in an
uncaught exception or fail to terminate, which the embedding makes explicit:
`thrown e` is an uncaught exception with message `e`, and `diverge` is
non-termination (reached only through the fuel bound on the self-recursive
array parser). -/
inductive POut (T : Type) where
  | ok (c : SearchParamContext) (r : Result T)
  | thrown (e : String)
  | diverge
deriving DecidableEq, Repr

namespace POut

/-- Map over the result inside a normal outcome; abnormal outcomes propagate. -/
def map {U V : Type} (f : U → V) : POut U → POut V
  | .ok c r => .ok c (Result.map f r)
  | .thrown e => .thrown e
  | .diverge => .diverge

end POut

/-- `SearchParamMapping<T>`: the parse/serialize pair. `parse` consumes a
context; `serialize` appends to a `URLSearchParams` accumulator (a pair list
in append order). -/
structure SearchParamMapping (T : Type) where
  parse : SearchParamContext → POut T
  serialize : T → List (String × String) → List (String × String)

namespace SearchParamMapping

/-- `SearchParamMapping.map(parse, serialize, mapping)`. The parse-side
transformer has type `U → Except String V` so that the application of a
JS function that may throw (such as `decodeURIComponent`) is embedded
faithfully: `.error e` is a thrown exception, which escapes the whole parse.
A never-throwing transformer `f` is passed as `fun u => .ok (f u)`. -/
def map {U V : Type} (parse : U → Except String V) (serialize : V → U)
    (mapping : SearchParamMapping U) : SearchParamMapping V where
  parse := fun params =>
    match mapping.parse params with
    | .ok remainder result =>
      match result with
      | .error es ws => .ok remainder (.error es ws)
      | .success d =>
        match parse d with
        | .ok v => .ok remainder (.success v)
        | .error e => .thrown e
      | .warning d ws =>
        match parse d with
        | .ok v => .ok remainder (.warning v ws)
        | .error e => .thrown e
    | .thrown e => .thrown e
    | .diverge => .diverge
  serialize := fun value params => mapping.serialize (serialize value) params

/-- `SearchParamMapping.bindResult(parse, serialize, mapping)`: the parse side
may fail or warn through the Result algebra. -/
def bindResult {U V : Type} (parse : U → Result V) (serialize : V → U)
    (mapping : SearchParamMapping U) : SearchParamMapping V where
  parse := fun params =>
    match mapping.parse params with
    | .ok remainder result => .ok remainder (Result.bind parse result)
    | .thrown e => .thrown e
    | .diverge => .diverge
  serialize := fun value params => mapping.serialize (serialize value) params

/-- `SearchParamMapping.pure(value)`: always succeeds, consumes and emits nothing. -/
def pure {U : Type} (value : U) : SearchParamMapping U where
  parse := fun params => .ok params (SuccessResult value)
  serialize := fun _ params => params

end SearchParamMapping

/-! ## PartialResult (src/unnamed/part_002) -/

/-- `PartialResult<T> = [Params, Result<T>]`. -/
abbrev PartialResult (T : Type) := SearchParamContext × Result T

namespace PartialResult

/-- `PartialResult.map`. -/
def map {U V : Type} (f : U → V) (pr : PartialResult U) : PartialResult V :=
  (pr.1, Result.map f pr.2)

/-- `PartialResult.semiExtract`: on error keep the fallback params, otherwise
take the inner pair's params and flatten the result. -/
def semiExtract {U : Type} (rpru : Result (PartialResult U)) (fallbackParams : SearchParamContext) :
    PartialResult U :=
  match rpru with
  | .error es ws => (fallbackParams, .error es ws)
  | r =>
    ((r.dataOf.map (fun pr => pr.1)).getD fallbackParams,
      Result.bind (fun x : PartialResult U => x.2) r)

/-- `PartialResult.flatten`. -/
def flatten {U : Type} (prpru : PartialResult (PartialResult U)) : PartialResult U :=
  semiExtract prpru.2 prpru.1

/-- `PartialResult.bind = flatten ∘ map`. -/
def bind {U V : Type} (f : U → PartialResult V) (ru : PartialResult U) : PartialResult V :=
  flatten (map f ru)

end PartialResult

/-- The warning-merge performed by `Result.flatten` when the outer layer is a
warning: outer warnings are prepended (a success adopts the outer warnings as
a warning state). -/
def Result.prependWarnings {α : Type} (ws : List String) : Result α → Result α
  | .error es ws2 => .error es (ws ++ ws2)
  | .warning d ws2 => .warning d (ws ++ ws2)
  | .success d => .warning d ws

/-- `PartialResult.bind(f, [c, r])` lifted over `POut`: when the continuation's
parse ends abnormally the whole computation does. On an error result the
continuation is not invoked and the fallback context `c` is kept (the exact
`semiExtract` behaviour); on a warning result the outer warnings are merged
as `Result.flatten` does. -/
def prBind {α β : Type} (f : α → POut β) (c : SearchParamContext) (r : Result α) : POut β :=
  match r with
  | .error es ws => .ok c (.error es ws)
  | .success u => f u
  | .warning u ws =>
    match f u with
    | .ok c2 r2 => .ok c2 (Result.prependWarnings ws r2)
    | x => x

/-! ## Percent-encode/decode service

The spec treats `encodeURIComponent` / `decodeURIComponent` as an external
string-escaping service, "assumed to be exact inverses on valid input and to
signal an error on malformed percent sequences" (a thrown `URIError` in JS).
The model below realises those properties concretely: ASCII characters other
than letters and digits are escaped as `%XX`; decoding rejects a `%` that is
not followed by two hex digits. -/

/-- Characters written verbatim by the encoder. -/
def isSafeChar (c : Char) : Bool :=
  c.isAlphanum || decide (128 ≤ c.toNat)

/-- Upper-case hex digit for a value below 16, computed from the code point
(48 is the code of the zero digit, 55 + 10 the code of the letter A). -/
def hexDigitChar (n : Nat) : Char :=
  if n < 10 then Char.ofNat (48 + n)
  else if n < 16 then Char.ofNat (55 + n)
  else 'X'

/-- Hex digit value by code-point range (both letter cases, as JS accepts). -/
def hexVal (c : Char) : Option Nat :=
  if 48 ≤ c.toNat ∧ c.toNat ≤ 57 then some (c.toNat - 48)
  else if 65 ≤ c.toNat ∧ c.toNat ≤ 70 then some (c.toNat - 55)
  else if 97 ≤ c.toNat ∧ c.toNat ≤ 102 then some (c.toNat - 87)
  else none

def encodeChars : List Char → List Char
  | [] => []
  | c :: rest =>
    if isSafeChar c then c :: encodeChars rest
    else '%' :: hexDigitChar (c.toNat / 16) :: hexDigitChar (c.toNat % 16) :: encodeChars rest

/-- The message of the `URIError` thrown by `decodeURIComponent`. -/
def uriErrorMsg : String := "URIError: URI malformed"

def decodeChars : List Char → Except String (List Char)
  | [] => .ok []
  | ['%'] => .error uriErrorMsg
  | ['%', _] => .error uriErrorMsg
  | '%' :: h1 :: h2 :: rest =>
    match hexVal h1, hexVal h2 with
    | some v1, some v2 => (decodeChars rest).map (fun l => Char.ofNat (16 * v1 + v2) :: l)
    | _, _ => .error uriErrorMsg
  | c :: rest => (decodeChars rest).map (fun l => c :: l)

/-- `encodeURIComponent` (total; JS can throw on lone surrogates, which Lean
`Char` cannot represent). -/
def encodeURIComponent (s : String) : String :=
  String.mk (encodeChars s.data)

/-- `decodeURIComponent`: `.error` is the thrown `URIError`. -/
def decodeURIComponent (s : String) : Except String String :=
  (decodeChars s.data).map String.mk

/-! ## Numeric primitives

`parseInt` / `parseFloat` / `Number.prototype.toString` are JS builtins; the
spec describes them as "base-10 parse" with a "canonical string form".  They
are modelled for base-10 input: an optional sign followed by a maximal digit
run (`parseInt`), optionally with a fractional part (`parseFloat`, modelled
exactly over `Rat`).  `NaN` is `none`. -/

/-- Big-endian accumulation of decimal digit characters. -/
def digitsToNat : Nat → List Char → Nat
  | acc, [] => acc
  | acc, c :: rest => digitsToNat (acc * 10 + (c.toNat - 48)) rest

/-- Maximal-prefix decimal digit parse; `none` when no digit is present. -/
def parseDigits (l : List Char) : Option Nat :=
  if (l.takeWhile Char.isDigit).isEmpty then none
  else some (digitsToNat 0 (l.takeWhile Char.isDigit))

/-- `parseInt(value)` for base-10 input: optional sign, then a maximal digit
run (an empty string parses no digit and is `NaN`, i.e. `none`). -/
def jsParseInt (s : String) : Option Int :=
  if s.data.headD ' ' = '-' then (parseDigits s.data.tail).map (fun n => -(n : Int))
  else if s.data.headD ' ' = '+' then (parseDigits s.data.tail).map (fun n => (n : Int))
  else (parseDigits s.data).map (fun n => (n : Int))

/-- Little-endian decimal digits of `n` (fuel-structured; `fuel ≥ n` suffices). -/
def natDigitsAux : Nat → Nat → List Nat
  | 0, _ => []
  | _ + 1, 0 => []
  | fuel + 1, n + 1 => (n + 1) % 10 :: natDigitsAux fuel ((n + 1) / 10)

/-- `Number.prototype.toString` for a non-negative integer. -/
def natToString (n : Nat) : String :=
  if n = 0 then "0" else String.mk ((natDigitsAux n n).reverse.map hexDigitChar)

/-- `Number.prototype.toString` for an integer. -/
def intToString : Int → String
  | .ofNat n => natToString n
  | .negSucc n => "-" ++ natToString (n + 1)

/-- `parseFloat` body after the sign: maximal digit run, optional `.` and a
second maximal digit run; `NaN` (`none`) when no digit at all. -/
def jsParseFloatCore (l : List Char) : Option Rat :=
  let ds := l.takeWhile Char.isDigit
  let rest := l.dropWhile Char.isDigit
  match rest with
  | '.' :: rest2 =>
    let fs := rest2.takeWhile Char.isDigit
    if ds.isEmpty && fs.isEmpty then none
    else some ((digitsToNat 0 ds : Rat) + (digitsToNat 0 fs : Rat) / (10 : Rat) ^ fs.length)
  | _ => if ds.isEmpty then none else some ((digitsToNat 0 ds : Rat))

/-- `parseFloat(value)` for decimal input. -/
def jsParseFloat (s : String) : Option Rat :=
  if s.data.headD ' ' = '-' then (jsParseFloatCore s.data.tail).map (fun q => -q)
  else if s.data.headD ' ' = '+' then jsParseFloatCore s.data.tail
  else jsParseFloatCore s.data

/-- Decimal digits of the fractional part `r/d` (fuel-bounded; terminates
exactly for the finite decimals `parseFloat` produces). -/
def fracDigits : Nat → Nat → Nat → List Char
  | 0, _, _ => []
  | _ + 1, 0, _ => []
  | fuel + 1, r + 1, d => hexDigitChar ((r + 1) * 10 / d) :: fracDigits fuel ((r + 1) * 10 % d) d

/-- `Number.prototype.toString` for a (finite-decimal) rational. -/
def numToString (q : Rat) : String :=
  let sign := if q < 0 then "-" else ""
  let n := q.num.natAbs
  let d := q.den
  let ip := n / d
  let r := n % d
  if r = 0 then sign ++ natToString ip
  else sign ++ natToString ip ++ "." ++ String.mk (fracDigits (2 * d) r d)

/-- Value of a little-endian digit list. -/
def valLE : List Nat → Nat
  | [] => 0
  | d :: rest => d + 10 * valLE rest

/-! ## Combinators (src/src/Combinators.ts) -/

/-- `PrimitiveParam(key)`: raw read/append of one occurrence of `key`. -/
def PrimitiveParam (key : String) : SearchParamMapping String where
  parse := fun params =>
    let pr := params.get key
    .ok pr.1 pr.2
  serialize := fun value params => params ++ [(key, value)]

/-- `StringParam(key)`: percent-decode on parse, percent-encode on serialize.
The decode transformer can signal a `URIError`, which escapes as a thrown
exception exactly as `decodeURIComponent` does in JS. -/
def StringParam (key : String) : SearchParamMapping String :=
  SearchParamMapping.map decodeURIComponent encodeURIComponent (PrimitiveParam key)

/-- `IntegerParam(key)`: base-10 integer with a warning when the canonical
string form differs from the input. -/
def IntegerParam (key : String) : SearchParamMapping Int :=
  SearchParamMapping.bindResult
    (fun value =>
      match jsParseInt value with
      | none =>
        ErrorResult s!"An integer search parameter [{key}={value}] could not be read as an integer."
      | some n =>
        if intToString n ≠ value then
          WarningResult n s!"An integer search parameter [{key}={value}] could only partially be read as an integer."
        else SuccessResult n)
    intToString
    (StringParam key)

/-- `NumberParam(key)`: like `IntegerParam` but fractional forms are allowed. -/
def NumberParam (key : String) : SearchParamMapping Rat :=
  SearchParamMapping.bindResult
    (fun value =>
      match jsParseFloat value with
      | none =>
        ErrorResult s!"A numerical search parameter [{key}={value}] could not be read as a number."
      | some n =>
        if numToString n ≠ value then
          WarningResult n s!"A numerical search parameter [{key}={value}] could only partially be read as a number."
        else SuccessResult n)
    numToString
    (StringParam key)

/-- `EnumParam(...values)(key)` (the source's curried constructor, flattened). -/
def EnumParam (values : List String) (key : String) : SearchParamMapping String :=
  SearchParamMapping.bindResult
    (fun value =>
      if values.contains value then SuccessResult value
      else
        let joined := String.intercalate ", " values
        ErrorResult s!"An enum search parameter [{key}={value}] could not be interpreted. Expected a value in the range ...{joined}...")
    (fun x => x)
    (StringParam key)

/-- `ConstParam(value)`. -/
def ConstParam {T : Type} (value : T) : SearchParamMapping T :=
  SearchParamMapping.pure value

/-- `BooleanParam(key)`: a wrapper around a 2-value `EnumParam`. -/
def BooleanParam (key : String) : SearchParamMapping Bool :=
  SearchParamMapping.map
    (fun value => .ok (if value = "true" then true else false))
    (fun x => if x then "true" else "false")
    (EnumParam ["true", "false"] key)

/-- `OptionalParam(mapping)`: on an inner error result, return the original
pre-attempt context and `success(undefined)`.  The TS value type is
`T | undefined`; it is embedded as `Option T` (`none` is `undefined`), so the
passed-through inner result is wrapped in `some`. -/
def OptionalParam {T : Type} (mapping : SearchParamMapping T) : SearchParamMapping (Option T) where
  parse := fun params =>
    match mapping.parse params with
    | .ok remainder result =>
      match result with
      | .error _ _ => .ok params (SuccessResult none)
      | .success d => .ok remainder (.success (some d))
      | .warning d ws => .ok remainder (.warning (some d) ws)
    | .thrown e => .thrown e
    | .diverge => .diverge
  serialize := fun value params =>
    match value with
    | none => params
    | some v => mapping.serialize v params

/-- `DefaultParam(mapping, defaultValue)`: mutes inner errors to the default;
serialization omits the default value (JS `===`, embedded as decidable
equality). -/
def DefaultParam {T : Type} (mapping : SearchParamMapping T) (defaultValue : T)
    [DecidableEq T] : SearchParamMapping T where
  parse := fun params =>
    match mapping.parse params with
    | .ok remainder result =>
      match result with
      | .error _ _ => .ok params (SuccessResult defaultValue)
      | .success d => .ok remainder (.success d)
      | .warning d ws => .ok remainder (.warning d ws)
    | .thrown e => .thrown e
    | .diverge => .diverge
  serialize := fun value params =>
    if value = defaultValue then params else mapping.serialize value params

/-- The self-recursive array parse.  The TS function recurses on the context
returned by the element parse with no structural bound, so it is embedded
with explicit fuel; running out of fuel yields `diverge`.  (`ArrayParam`
supplies fuel `totalUnread + 1`, which never runs out when every successful
element parse consumes at least one occurrence — see
`arrayParseAux_ok_of_consuming` below — and the TS code really does loop
forever otherwise, see `arrayParseAux_const_diverge`.) -/
def arrayParseAux {T : Type} (m : SearchParamMapping T) :
    Nat → SearchParamContext → POut (List T)
  | 0, _ => .diverge
  | fuel + 1, params =>
    match m.parse params with
    | .ok remainder head =>
      if head.isError then .ok params (SuccessResult [])
      else
        match arrayParseAux m fuel remainder with
        | .ok remainder2 tail => .ok remainder2 (Result.map2 (fun x y => x :: y) head tail)
        | .thrown e => .thrown e
        | .diverge => .diverge
    | .thrown e => .thrown e
    | .diverge => .diverge

/-- The self-recursive array serialize (structural in the value list).
`undef` embeds the JS `head === undefined` test for the element type
(constantly `false` for element types with no `undefined` member, `isNone`
for optional element types). -/
def arraySerialize {T : Type} (undef : T → Bool) (m : SearchParamMapping T) :
    List T → List (String × String) → List (String × String)
  | [], params => params
  | head :: tail, params =>
    if undef head then params
    else arraySerialize undef m tail (m.serialize head params)

/-- `ArrayParam(mapping)`. -/
def ArrayParam {T : Type} (undef : T → Bool) (m : SearchParamMapping T) :
    SearchParamMapping (List T) where
  parse := fun params => arrayParseAux m (params.totalUnread + 1) params
  serialize := fun value params => arraySerialize undef m value params

/-- One field step of `ObjectParam`'s `forEach` body:
`PartialResult.bind(pt => PartialResult.map(tk => {pt[key] = tk; return pt},
fields[key].parse(params)), [params, val])`, lifted over `POut` (an abnormal
outcome of the field's parse escapes the whole object parse). -/
def objStep {σ σ2 β : Type} (m : SearchParamMapping β) (set : σ → β → σ2)
    (params : SearchParamContext) (val : Result σ) : POut σ2 :=
  prBind (fun pt => POut.map (fun tk => set pt tk) (m.parse params)) params val

/-- `ObjectParam` specialised to a record of two (heterogeneously typed)
fields, building the pair in field order through the exact `PartialResult`
threading of the source (`Partial<T>` states are `Unit`, then `α`, then
`α × β`). -/
def ObjectParam2 {α β : Type} (m1 : SearchParamMapping α) (m2 : SearchParamMapping β) :
    SearchParamMapping (α × β) where
  parse := fun initialParams =>
    match objStep m1 (fun _ a => a) initialParams (SuccessResult ()) with
    | .ok params1 val1 => objStep m2 (fun a b => (a, b)) params1 val1
    | .thrown e => .thrown e
    | .diverge => .diverge
  serialize := fun value params => m2.serialize value.2 (m1.serialize value.1 params)

/-- The `fieldNames.forEach` loop of `ObjectParam`'s parse, for a homogeneous
record of fields: the `Partial<T>` object under construction is the
association list of fields assigned so far (`pt[key] = tk` appends). -/
def objGo {α : Type} :
    List (String × SearchParamMapping α) → SearchParamContext →
      Result (List (String × α)) → POut (List (String × α))
  | [], params, val => .ok params val
  | (key, m) :: rest, params, val =>
    match objStep m (fun pt tk => pt ++ [(key, tk)]) params val with
    | .ok params2 val2 => objGo rest params2 val2
    | .thrown e => .thrown e
    | .diverge => .diverge

/-- `ObjectParam(fields)` for a homogeneous record of fields, parsed and
serialized in field order.  (`value[key]` during serialization is looked up
in the association list; a missing field — `undefined` in JS — serializes
nothing.) -/
def ObjectParamL {α : Type} (fields : List (String × SearchParamMapping α)) :
    SearchParamMapping (List (String × α)) where
  parse := fun initialParams => objGo fields initialParams (SuccessResult [])
  serialize := fun value params =>
    fields.foldl
      (fun acc kv =>
        match lookupA value kv.1 with
        | some a => kv.2.serialize a acc
        | none => acc)
      params

/-- Outcome of `runParse`: a `Result`, or the JS-level abnormal outcomes. -/
inductive RunOut (T : Type) where
  | res (r : Result T)
  | thrown (e : String)
  | diverge
deriving DecidableEq, Repr

/-- `runParse(mapping, params)`: top-level parse with a synthetic warning per
leftover unconsumed key. -/
def runParse {T : Type} (mapping : SearchParamMapping T) (params : List (String × String)) :
    RunOut T :=
  match mapping.parse (SearchParamContext.fromUrlSearchParams params) with
  | .ok remainder result =>
    .res (Result.addWarnings result
      ((remainder.remainingKeys).map (fun key => s!"Key {key} has remaining unparsed instances")))
  | .thrown e => .thrown e
  | .diverge => .diverge


/-! ## Derived notions used by the verification -/

/-- The unread-count contribution of one `valueMap` entry. -/
def unreadEntry (pm : List (String × Nat)) (kv : String × List String) : Nat :=
  kv.2.length - min ((lookupA pm kv.1).getD 0) kv.2.length

/-- Contexts reachable from a given context by successful `get` calls. -/
inductive ReachableOk : SearchParamContext → SearchParamContext → Prop
  | refl (c : SearchParamContext) : ReachableOk c c
  | step {c1 c2 c3 : SearchParamContext} {k : String} {v : String} :
      ReachableOk c1 c2 → c2.get k = (c3, .success v) → ReachableOk c1 c3

/-- The spec's Context invariant: every key's cursor is at most the length of
that key's value sequence. -/
def CursorInv (c : SearchParamContext) : Prop :=
  ∀ k i vs, lookupA c.progress k = some i → lookupA c.valueMap k = some vs →
    i ≤ vs.length

/-- Context well-formedness: every key with a value sequence also has a
cursor (as `fromUrlSearchParams` guarantees by construction). -/
def WFc (c : SearchParamContext) : Prop :=
  ∀ k, (lookupA c.valueMap k).isSome → (lookupA c.progress k).isSome

/-- A chain of successful, strictly-consuming element parses: from `c`, the
mapping parses the listed values in order, each step consuming at least one
occurrence, ending in `cN`. -/
def ParsesSeqC {T : Type} (m : SearchParamMapping T) :
    SearchParamContext → List T → SearchParamContext → Prop
  | c, [], cN => c = cN
  | c, v :: vs, cN =>
    ∃ c2, m.parse c = .ok c2 (.success v) ∧
      c2.totalUnread < c.totalUnread ∧ ParsesSeqC m c2 vs cN

/-! ## Deep embedding of the combinator language

The round-trip claim ranges over "combinator-built Mappings"; the grammar
below reifies the combinator constructors (with `ObjectParam` represented by
its two-field instance `pair`) and `denote` maps each constructor to the
corresponding shallow combinator above.  `const` and `dflt` carry the
decidable equality embedding the JS `===` checks on the value type. -/

inductive Comb : Type → Type 1 where
  | str (key : String) : Comb String
  | integer (key : String) : Comb Int
  | enum (values : List String) (key : String) : Comb String
  | const {T : Type} (deq : DecidableEq T) (v : T) : Comb T
  | opt {T : Type} : Comb T → Comb (Option T)
  | dflt {T : Type} (deq : DecidableEq T) : Comb T → T → Comb T
  | arr {T : Type} : Comb T → Comb (List T)
  | pair {A B : Type} : Comb A → Comb B → Comb (A × B)

/-- The JS `=== undefined` test for the value type built by a combinator
(`none` for optional types, constantly false otherwise). -/
def Comb.undefVal : {T : Type} → Comb T → (T → Bool)
  | _, .opt _ => fun v => v.isNone
  | _, .dflt _ m _ => m.undefVal
  | _, _ => fun _ => false

/-- Denotation: each grammar constructor is the corresponding combinator. -/
def Comb.denote : {T : Type} → Comb T → SearchParamMapping T
  | _, .str k => StringParam k
  | _, .integer k => IntegerParam k
  | _, .enum vs k => EnumParam vs k
  | _, .const _ v => ConstParam v
  | _, .opt m => OptionalParam m.denote
  | _, .dflt deq m d => @DefaultParam _ m.denote d deq
  | _, .arr m => ArrayParam m.undefVal m.denote
  | _, .pair f g => ObjectParam2 f.denote g.denote

/-- The query keys a combinator can touch. -/
def Comb.keys : {T : Type} → Comb T → List String
  | _, .str k => [k]
  | _, .integer k => [k]
  | _, .enum _ k => [k]
  | _, .const _ _ => []
  | _, .opt m => m.keys
  | _, .dflt _ m _ => m.keys
  | _, .arr m => m.keys
  | _, .pair f g => f.keys ++ g.keys

/-- Whether the combinator can produce an error result (primitives fail on a
missing key; `const`, `opt`, `dflt` and `arr` never error; a pair fails when
either field can). -/
def Comb.canFail : {T : Type} → Comb T → Bool
  | _, .str _ => true
  | _, .integer _ => true
  | _, .enum _ _ => true
  | _, .const _ _ => false
  | _, .opt _ => false
  | _, .dflt _ _ _ => false
  | _, .arr _ => false
  | _, .pair f g => f.canFail || g.canFail

/-- Rigid combinators read a fixed number of occurrences per key regardless of
context: the primitives and pairs of rigids. -/
def Comb.rigid : {T : Type} → Comb T → Bool
  | _, .str _ => true
  | _, .integer _ => true
  | _, .enum _ _ => true
  | _, .const _ _ => true
  | _, .opt _ => false
  | _, .dflt _ _ _ => false
  | _, .arr _ => false
  | _, .pair f g => f.rigid && g.rigid

/-- Well-keyed combinator trees: arrays repeat a rigid, failing element;
pair fields either are both rigid or use disjoint key sets.  (Outside this
class the greedy/backtracking combinators can steal a sibling's occurrences
and the round-trip law fails — see the counterexample theorem.) -/
def Comb.wellKeyed : {T : Type} → Comb T → Bool
  | _, .str _ => true
  | _, .integer _ => true
  | _, .enum _ _ => true
  | _, .const _ _ => true
  | _, .opt m => m.wellKeyed
  | _, .dflt _ m _ => m.wellKeyed
  | _, .arr m => m.rigid && m.canFail
  | _, .pair f g =>
    f.wellKeyed && g.wellKeyed &&
      (f.rigid && g.rigid || f.keys.all (fun k => !(g.keys.contains k)))

/-- The values a combinator accepts (the structural reading of the claim's
"value `v` accepted by `m`"): any string/integer for the string/integer
primitives, a member of the enumeration, the constant itself, pointwise for
pairs and array elements; `none` (JS `undefined`) is accepted by `opt m`
when `m` can fail (otherwise parsing can never produce it), and the default
value is accepted by `dflt m d` under the same condition. -/
def Comb.accepts : {T : Type} → Comb T → T → Bool
  | _, .str _, _ => true
  | _, .integer _, _ => true
  | _, .enum vs _, v => vs.contains v
  | _, .const deq v0, v => @decide (v = v0) (deq v v0)
  | _, .opt m, v =>
    match v with
    | none => m.canFail
    | some w => m.accepts w
  | _, .dflt deq m d, v => if @decide (v = d) (deq v d) then m.canFail else m.accepts v
  | _, .arr m, es => es.all (fun e => m.accepts e)
  | _, .pair f g, v => f.accepts v.1 && g.accepts v.2

/-- The occurrences a combinator writes for one key when serializing `v` into
an empty accumulator. -/
def serOccK {T : Type} (c : Comb T) (v : T) (k : String) : List String :=
  getAllP (c.denote.serialize v []) k

/-- The exact-consumption parse contract used in the round-trip proof: the
parse succeeds with `v`, leaves the value sequences untouched, and advances
each key's cursor by exactly the number of occurrences `occ` serializes for
that key. -/
def ParseExact {T : Type} (den : SearchParamMapping T) (v : T) (occ : String → List String)
    (ctx : SearchParamContext) : Prop :=
  ∃ ctx2, den.parse ctx = .ok ctx2 (.success v) ∧ ctx2.valueMap = ctx.valueMap ∧
    ∀ k, lookupA ctx2.progress k =
      Option.map (fun i => i + (occ k).length) (lookupA ctx.progress k)

/-- The round-trip property exactly as the claim words it: serializing `v`
into an empty accumulator and parsing the resulting parameters succeeds with
payload `v`. -/
def roundTripOk {T : Type} [DecidableEq T] (c : Comb T) (v : T) : Bool :=
  match c.denote.parse (SearchParamContext.fromUrlSearchParams (c.denote.serialize v [])) with
  | .ok _ (.success w) => decide (w = v)
  | _ => false

/-! ## Theorems -/

theorem hexVal_hexDigitChar : ∀ d : Nat, d < 16 → hexVal (hexDigitChar d) = some d := by
  decide

theorem isSafeChar_toNat_lt {c : Char} (h : isSafeChar c = false) : c.toNat < 256 := by
  by_contra hlt
  simp only [isSafeChar, Bool.or_eq_false_iff, decide_eq_false_iff_not] at h
  omega

theorem decodeChars_cons_ne {c : Char} (rest : List Char) (h : c ≠ '%') :
    decodeChars (c :: rest) = (decodeChars rest).map (fun l => c :: l) := by
  match rest with
  | [] => simp [decodeChars, h]
  | [a] => simp [decodeChars, h]
  | a :: b :: r => simp [decodeChars, h]

theorem decodeChars_encodeChars (l : List Char) : decodeChars (encodeChars l) = .ok l := by
  induction l with
  | nil => rfl
  | cons c rest ih =>
    by_cases hc : isSafeChar c = true
    · have hne : c ≠ '%' := by
        intro h
        subst h
        exact absurd hc (by decide)
      rw [encodeChars, if_pos hc, decodeChars_cons_ne _ hne, ih]
      rfl
    · rw [encodeChars, if_neg hc]
      have h256 : c.toNat < 256 := isSafeChar_toNat_lt (by simpa using hc)
      have hd : c.toNat / 16 < 16 := by omega
      have hm : c.toNat % 16 < 16 := by omega
      rw [decodeChars]
      rw [hexVal_hexDigitChar _ hd, hexVal_hexDigitChar _ hm]
      simp only [ih]
      have : 16 * (c.toNat / 16) + c.toNat % 16 = c.toNat := by omega
      rw [this, Char.ofNat_toNat]
      rfl

/-- The service inverse property the spec assumes: decoding an encoded string
gives the original back (never a `URIError`). -/
theorem decodeURIComponent_encodeURIComponent (s : String) :
    decodeURIComponent (encodeURIComponent s) = .ok s := by
  cases s with
  | mk data =>
    simp only [decodeURIComponent, encodeURIComponent]
    rw [decodeChars_encodeChars]
    rfl

theorem digitsToNat_nil (acc : Nat) : digitsToNat acc [] = acc := rfl

theorem digitsToNat_cons (acc : Nat) (c : Char) (rest : List Char) :
    digitsToNat acc (c :: rest) = digitsToNat (acc * 10 + (c.toNat - 48)) rest := rfl

theorem takeWhile_eq_self_of_all {p : Char → Bool} :
    ∀ l : List Char, (∀ c ∈ l, p c = true) → l.takeWhile p = l := by
  intro l h
  exact List.takeWhile_eq_self_iff.mpr (by simpa using h)

theorem valLE_natDigitsAux : ∀ fuel n : Nat, n ≤ fuel → valLE (natDigitsAux fuel n) = n := by
  intro fuel
  induction fuel with
  | zero => intro n h; interval_cases n; rfl
  | succ f ih =>
    intro n h
    match n with
    | 0 => rfl
    | m + 1 =>
      rw [natDigitsAux, valLE, ih ((m + 1) / 10) (by omega)]
      omega

theorem natDigitsAux_lt : ∀ fuel n : Nat, ∀ d ∈ natDigitsAux fuel n, d < 10 := by
  intro fuel
  induction fuel with
  | zero => intro n d hd; simp [natDigitsAux] at hd
  | succ f ih =>
    intro n d hd
    match n with
    | 0 => simp [natDigitsAux] at hd
    | m + 1 =>
      rw [natDigitsAux] at hd
      rcases List.mem_cons.mp hd with h | h
      · omega
      · exact ih _ _ h

theorem digitsToNat_append (acc : Nat) (l1 l2 : List Char) :
    digitsToNat acc (l1 ++ l2) = digitsToNat (digitsToNat acc l1) l2 := by
  induction l1 generalizing acc with
  | nil => rfl
  | cons c rest ih => rw [List.cons_append, digitsToNat_cons, digitsToNat_cons, ih]

theorem digitsToNat_rev_digits :
    ∀ ds : List Nat, ∀ acc : Nat, (∀ d ∈ ds, d < 10) →
      digitsToNat acc (ds.reverse.map hexDigitChar) = acc * 10 ^ ds.length + valLE ds := by
  intro ds
  induction ds with
  | nil => intro acc h; simp [digitsToNat_nil, valLE]
  | cons d rest ih =>
    intro acc h
    rw [List.reverse_cons, List.map_append, digitsToNat_append]
    have hrest := ih acc (fun x hx => h x (by simp [hx]))
    rw [hrest]
    have hd : d < 10 := h d (by simp)
    have hchar : (hexDigitChar d).toNat - 48 = d := by
      interval_cases d <;> rfl
    simp only [List.map_cons, List.map_nil, digitsToNat_cons, digitsToNat_nil, hchar, valLE,
      List.length_cons]
    ring

theorem isDigit_hexDigitChar : ∀ d : Nat, d < 10 → (hexDigitChar d).isDigit = true := by
  decide

theorem natDigitsAux_ne_nil (n : Nat) (h : 0 < n) : natDigitsAux n n ≠ [] := by
  match n, h with
  | m + 1, _ => rw [natDigitsAux]; simp

theorem natToString_all_digits (n : Nat) : ∀ c ∈ (natToString n).data, c.isDigit = true := by
  intro c hc
  unfold natToString at hc
  by_cases h : n = 0
  · rw [if_pos h] at hc
    simp only [String.data] at hc
    have hc0 : c = '0' := by simpa using hc
    subst hc0
    decide
  · rw [if_neg h] at hc
    simp only [String.data] at hc
    rcases List.mem_map.mp hc with ⟨d, hd, rfl⟩
    exact isDigit_hexDigitChar d (natDigitsAux_lt n n d (List.mem_reverse.mp hd))

theorem natToString_ne_nil (n : Nat) : (natToString n).data ≠ [] := by
  unfold natToString
  by_cases h : n = 0
  · rw [if_pos h]; simp
  · rw [if_neg h]
    simp only [String.data, ne_eq, List.map_eq_nil_iff, List.reverse_eq_nil_iff]
    exact natDigitsAux_ne_nil n (by omega)

theorem parseDigits_natToString (n : Nat) : parseDigits (natToString n).data = some n := by
  unfold parseDigits
  rw [takeWhile_eq_self_of_all _ (natToString_all_digits n)]
  rw [List.isEmpty_eq_false.mpr (natToString_ne_nil n)]
  simp only [Bool.false_eq_true, if_false, Option.some.injEq]
  unfold natToString
  by_cases h : n = 0
  · rw [if_pos h]; subst h; rfl
  · rw [if_neg h]
    simp only [String.data]
    rw [digitsToNat_rev_digits _ _ (natDigitsAux_lt n n), valLE_natDigitsAux n n (le_refl n)]
    simp

theorem jsParseInt_intToString (v : Int) : jsParseInt (intToString v) = some v := by
  cases v with
  | ofNat n =>
    show jsParseInt (natToString n) = some (Int.ofNat n)
    unfold jsParseInt
    rcases hd : (natToString n).data with _ | ⟨c, rest⟩
    · exact absurd hd (natToString_ne_nil n)
    · have hdig : c.isDigit = true := natToString_all_digits n c (by rw [hd]; simp)
      have hm : c ≠ '-' := by intro h; subst h; simp at hdig
      have hp : c ≠ '+' := by intro h; subst h; simp at hdig
      have hpd : parseDigits (c :: rest) = some n := by
        rw [← hd]; exact parseDigits_natToString n
      simp only [List.headD_cons, if_neg hm, if_neg hp, hpd]
      rfl
  | negSucc n =>
    show jsParseInt ("-" ++ natToString (n + 1)) = some (Int.negSucc n)
    unfold jsParseInt
    have hd : ("-" ++ natToString (n + 1)).data = '-' :: (natToString (n + 1)).data := by
      simp [String.data_append]
    rw [hd]
    simp only [List.headD_cons, List.tail_cons, parseDigits_natToString, if_pos]
    norm_num
    rw [Int.negSucc_eq]
    ring

/-! ## Association-list and context lemmas -/

theorem lookupA_setA_self {α : Type} (l : List (String × α)) (k : String) (v : α) :
    lookupA (setA l k v) k = some v := by
  induction l with
  | nil => simp [setA, lookupA]
  | cons kv rest ih =>
    obtain ⟨k2, w⟩ := kv
    by_cases h : k2 = k
    · simp [setA, lookupA, h]
    · simp [setA, lookupA, h, ih]

theorem lookupA_setA_ne {α : Type} (l : List (String × α)) (k k2 : String) (v : α)
    (h : k2 ≠ k) : lookupA (setA l k v) k2 = lookupA l k2 := by
  induction l with
  | nil =>
    simp only [setA, lookupA]
    rw [if_neg (fun hh : k = k2 => h hh.symm)]
  | cons kv rest ih =>
    obtain ⟨k3, w⟩ := kv
    by_cases h3 : k3 = k
    · subst h3
      have hne : ¬ k3 = k2 := fun hh => h hh.symm
      simp [setA, lookupA, hne]
    · simp only [setA, if_neg h3, lookupA]
      by_cases h32 : k3 = k2
      · simp [h32]
      · simp [h32, ih]

theorem lookupA_map_zero (ks : List String) (k : String) (i : Nat)
    (h : lookupA (ks.map (fun k2 => (k2, (0 : Nat)))) k = some i) : i = 0 := by
  induction ks with
  | nil => simp [lookupA] at h
  | cons k2 rest ih =>
    simp only [List.map_cons, lookupA] at h
    by_cases hk : k2 = k
    · rw [if_pos hk] at h
      exact (Option.some.injEq _ _ ▸ h).symm
    · rw [if_neg hk] at h
      exact ih h

theorem get_success {c : SearchParamContext} {k : String} {c2 : SearchParamContext} {v : String}
    (h : c.get k = (c2, .success v)) :
    ∃ i vs, lookupA c.progress k = some i ∧ lookupA c.valueMap k = some vs ∧
      vs[i]? = some v ∧ c2 = ⟨setA c.progress k (i + 1), c.valueMap⟩ := by
  unfold SearchParamContext.get at h
  split at h
  next i vs hp hv =>
    split at h
    · next w hg =>
      rw [Prod.mk.injEq] at h
      obtain ⟨h1, h2⟩ := h
      simp only [SuccessResult, Result.success.injEq] at h2
      exact ⟨i, vs, hp, hv, by rw [hg, h2], h1.symm⟩
    · simp [ErrorResult] at h
  next hcat => simp [ErrorResult] at h

theorem get_valueMap (c : SearchParamContext) (k : String) :
    ((c.get k).1).valueMap = c.valueMap := by
  unfold SearchParamContext.get
  split
  · split <;> rfl
  · rfl

theorem cursorInv_fromUrl (p : List (String × String)) :
    CursorInv (SearchParamContext.fromUrlSearchParams p) := by
  intro k i vs hp _
  have : i = 0 := lookupA_map_zero _ k i hp
  omega

theorem cursorInv_step {c c2 : SearchParamContext} {k v : String}
    (hinv : CursorInv c) (h : c.get k = (c2, .success v)) : CursorInv c2 := by
  obtain ⟨i, vs, hp, hv, hget, rfl⟩ := get_success h
  intro k2 j vs2 hp2 hv2
  by_cases hk : k2 = k
  · subst hk
    rw [lookupA_setA_self] at hp2
    have hj : j = i + 1 := (Option.some.injEq _ _ ▸ hp2).symm
    have hvs : vs2 = vs := by
      rw [hv] at hv2
      exact (Option.some.injEq _ _ ▸ hv2).symm
    have : i < vs.length := (List.getElem?_eq_some_iff.mp hget).1
    subst hj hvs
    omega
  · rw [lookupA_setA_ne _ _ _ _ hk] at hp2
    exact hinv k2 j vs2 hp2 hv2

/-! ## Claim C7 (context cursor invariant) -/

/-- C7 counterexample: the claim "cursor ≤ length at all times for every
context reachable by get calls" is false.  From `a=1`, two `get "a"` calls
reach a context whose cursor for `a` is 2 while the sequence has length 1:
the failed read of an exhausted key still advances the cursor. -/
theorem context_cursor_counterexample :
    lookupA (((((SearchParamContext.fromUrlSearchParams [("a", "1")]).get "a").1).get "a").1).progress "a"
        = some 2 ∧
    lookupA (((((SearchParamContext.fromUrlSearchParams [("a", "1")]).get "a").1).get "a").1).valueMap "a"
        = some ["1"] ∧
    ¬ (2 ≤ (["1"] : List String).length) := by
  decide

/-- C7 amended: `get` never mutates the value sequences (the old context
remains valid: advancing builds a new context value), and `cursor ≤ length`
holds for every context reachable from `fromUrlSearchParams` by a sequence of
*successful* `get` calls; a failed `get` on an exhausted key advances the
cursor past the length (see the counterexample). -/
theorem context_cursor_persistence :
    (∀ (c : SearchParamContext) (k : String), ((c.get k).1).valueMap = c.valueMap) ∧
    (∀ (p : List (String × String)) (c : SearchParamContext),
      ReachableOk (SearchParamContext.fromUrlSearchParams p) c → CursorInv c) := by
  constructor
  · exact get_valueMap
  · intro p c h
    induction h with
    | refl => exact cursorInv_fromUrl p
    | step hr hg ih => exact cursorInv_step ih hg

/-- C7 witness: the invariant instantiated after one successful get on `a=1`. -/
theorem context_cursor_persistence_witness :
    CursorInv ((SearchParamContext.fromUrlSearchParams [("a", "1")]).get "a").1 :=
  context_cursor_persistence.2 [("a", "1")] _
    (@ReachableOk.step (SearchParamContext.fromUrlSearchParams [("a", "1")])
      (SearchParamContext.fromUrlSearchParams [("a", "1")])
      ((SearchParamContext.fromUrlSearchParams [("a", "1")]).get "a").1 "a" "1"
      (ReachableOk.refl _) (by decide))

/-! ## Claim C4 (Result.either) -/

/-- C4 counterexample: with a warning on the left and a success on the right,
`either` returns the *right* operand's data (the branch with fewer warnings),
not the left operand's data as the claim states; the attached note says
"returned value with fewer warnings", not that the choice was arbitrary. -/
theorem either_left_data_counterexample :
    Result.dataOf (Result.either (.warning (1 : Nat) ["w"]) (.success 2)) = some 2 ∧
    (2 : Nat) ≠ 1 := by
  decide

/-- C4 amended: when both operands carry data the combined result is demoted
to a warning; with equal statuses the left operand's data wins and the note
says the returned value may be arbitrary (the warning/warning note carries
the source's typo), while with mixed statuses the success operand's data wins
and the note says the value with fewer warnings was returned.  When both are
errors, the result is an error listing both branches' errors after a note
that both branches failed. -/
theorem either_cases_spec {α : Type} (x y : α) (ws ws2 es es2 vs vs2 : List String) :
    Result.either (.success x) (.success y) =
      .warning x ["Both parse branches produced valid data, returned value may be arbitrary."] ∧
    Result.either (.success x) (.warning y ws) =
      .warning x ("Both parse branches produced valid data, returned value with fewer warnings." :: ws) ∧
    Result.either (.warning x ws) (.success y) =
      .warning y ("Both parse branches produced valid data, returned value with fewer warnings." :: ws) ∧
    Result.either (.warning x ws) (.warning y ws2) =
      .warning x ("Both parse branches produced valid datareturned value may be arbitrary." :: (ws ++ ws2)) ∧
    Result.either (.error es vs : Result α) (.error es2 vs2) =
      .error ("Both parse branches encountered errors." :: (es ++ es2)) (vs ++ vs2) :=
  ⟨rfl, rfl, rfl, rfl, rfl⟩

/-! ## Claim C8 (StringParam never throws) -/

/-- C8: the claim (and the spec) say decode failures surface as an error
`Result` and combinators never throw; but `StringParam` applies
`decodeURIComponent` through `Result.map` with nothing to catch the
`URIError`, so a malformed percent sequence in the stored value makes the
parse throw.  Evaluating the embedded code at the failing input `a=%`. -/
theorem stringParam_throws_on_malformed_percent :
    (StringParam "a").parse (SearchParamContext.fromUrlSearchParams [("a", "%")]) =
      .thrown "URIError: URI malformed" := by
  decide

/-! ## Claim C2 (ObjectParam error aggregation) -/

/-- C2: the claim (and the source's own doc comment "Will collect and
aggregate all errors") say every field is attempted and all field errors are
collected; but `PartialResult.bind` short-circuits — once the running result
is an error, `Result.map` never invokes the continuation, so later fields are
not attempted.  With the two required fields `a` and `b` both missing, the
object's error mentions only `a`. -/
theorem objectParam_short_circuit_two_missing :
    (ObjectParamL [("a", IntegerParam "a"), ("b", IntegerParam "b")]).parse
        (SearchParamContext.fromUrlSearchParams []) =
      .ok (SearchParamContext.fromUrlSearchParams [])
        (.error ["Required search parameter [a] was not found."] []) := by
  decide

/-! ## Claim C6 (OptionalParam backtracking) -/

/-- C6: `OptionalParam` restores the original pre-attempt context (nothing
consumed) with `success(undefined)` when the inner parse yields an error
result, and passes the inner context and result through unchanged on an inner
success or warning (the payload is wrapped in `some`, the embedding of the
`T ↪ T | undefined` inclusion). -/
theorem optionalParam_spec {T : Type} (m : SearchParamMapping T) (c : SearchParamContext) :
    (∀ c2 es ws, m.parse c = .ok c2 (.error es ws) →
      (OptionalParam m).parse c = .ok c (.success none)) ∧
    (∀ c2 d, m.parse c = .ok c2 (.success d) →
      (OptionalParam m).parse c = .ok c2 (.success (some d))) ∧
    (∀ c2 d ws, m.parse c = .ok c2 (.warning d ws) →
      (OptionalParam m).parse c = .ok c2 (.warning (some d) ws)) := by
  refine ⟨?_, ?_, ?_⟩
  · intro c2 es ws h
    simp [OptionalParam, h, SuccessResult]
  · intro c2 d h
    simp [OptionalParam, h]
  · intro c2 d ws h
    simp [OptionalParam, h]

/-- C6 witness: `IntegerParam "k"` errors on an empty input, and
`OptionalParam` of it returns the untouched original context with
`success(undefined)`. -/
theorem optionalParam_spec_witness :
    (OptionalParam (IntegerParam "k")).parse (SearchParamContext.fromUrlSearchParams []) =
      .ok (SearchParamContext.fromUrlSearchParams []) (.success none) :=
  (optionalParam_spec (IntegerParam "k") (SearchParamContext.fromUrlSearchParams [])).1
    (SearchParamContext.fromUrlSearchParams [])
    ["Required search parameter [k] was not found."] [] (by decide)

/-! ## Claim C3 (runParse folds leftover warnings) -/

theorem arraySerialize_nil_eq {T : Type} (undef : T → Bool) (m : SearchParamMapping T)
    (p : List (String × String)) : arraySerialize undef m [] p = p := rfl

theorem arraySerialize_cons_eq {T : Type} (undef : T → Bool) (m : SearchParamMapping T)
    (h : T) (t : List T) (p : List (String × String)) :
    arraySerialize undef m (h :: t) p =
      if undef h then p else arraySerialize undef m t (m.serialize h p) := rfl

/-- C3: `runParse` returns the mapping's parse result with one synthetic
warning added per key with unconsumed occurrences; in particular an object
`{num: NumberParam "n"}` against `n=1&n=2` succeeds with `num = 1` and also
reports `n` as having remaining unparsed instances. -/
theorem runParse_folds_leftover_warnings :
    (∀ (T : Type) (m : SearchParamMapping T) (p : List (String × String))
        (rem : SearchParamContext) (r : Result T),
      m.parse (SearchParamContext.fromUrlSearchParams p) = .ok rem r →
      runParse m p = .res (Result.addWarnings r
        ((rem.remainingKeys).map (fun key => s!"Key {key} has remaining unparsed instances")))) ∧
    runParse (ObjectParamL [("num", NumberParam "n")]) [("n", "1"), ("n", "2")] =
      .res (.warning [("num", (1 : Rat))] ["Key n has remaining unparsed instances"]) := by
  constructor
  · intro T m p rem r h
    unfold runParse
    rw [h]
  · decide

/-- C3 witness: the general warning-folding equation applied at the claim's
concrete example. -/
theorem runParse_folds_leftover_warnings_witness :
    runParse (ObjectParamL [("num", NumberParam "n")]) [("n", "1"), ("n", "2")] =
      .res (Result.addWarnings (.success [("num", (1 : Rat))])
        ((SearchParamContext.remainingKeys ⟨[("n", 1)], [("n", ["1", "2"])]⟩).map
          (fun key => s!"Key {key} has remaining unparsed instances"))) :=
  runParse_folds_leftover_warnings.1 _ _ _ ⟨[("n", 1)], [("n", ["1", "2"])]⟩
    (.success [("num", (1 : Rat))]) (by decide)

/-! ## Claim C10 (ArrayParam serialize stops at the first undefined) -/

/-- C10: `ArrayParam`'s serialize stops at the first element that is JS
`undefined`: an empty list or an undefined head returns the accumulator
unchanged, and nothing at or after the first undefined element is written. -/
theorem arrayParam_serialize_stops {T : Type} (undef : T → Bool) (m : SearchParamMapping T)
    (p : List (String × String)) :
    ((ArrayParam undef m).serialize [] p = p) ∧
    (∀ (h : T) (t : List T), undef h = true → (ArrayParam undef m).serialize (h :: t) p = p) ∧
    (∀ (pre : List T) (u : T) (rest : List T),
      (∀ x ∈ pre, undef x = false) → undef u = true →
      (ArrayParam undef m).serialize (pre ++ u :: rest) p =
        (ArrayParam undef m).serialize pre p) := by
  refine ⟨rfl, ?_, ?_⟩
  · intro h t hu
    show arraySerialize undef m (h :: t) p = p
    rw [arraySerialize_cons_eq, if_pos hu]
  · intro pre u rest hall hu
    show arraySerialize undef m (pre ++ u :: rest) p = arraySerialize undef m pre p
    induction pre generalizing p with
    | nil =>
      simp only [List.nil_append]
      rw [arraySerialize_cons_eq, if_pos hu, arraySerialize_nil_eq]
    | cons x xs ih =>
      have hx : undef x = false := hall x (by simp)
      rw [List.cons_append, arraySerialize_cons_eq, arraySerialize_cons_eq, hx]
      simp only [Bool.false_eq_true, if_false]
      exact ih (m.serialize x p) (fun y hy => hall y (by simp [hy]))

/-- C10 witness: serializing `[some 1, undefined, some 2]` over an optional
integer element mapping writes only the prefix before the undefined element. -/
theorem arrayParam_serialize_stops_witness :
    (ArrayParam (fun v : Option Int => v.isNone) (OptionalParam (IntegerParam "k"))).serialize
        [some 1, none, some 2] [] =
      (ArrayParam (fun v : Option Int => v.isNone) (OptionalParam (IntegerParam "k"))).serialize
        [some 1] [] ∧
    (ArrayParam (fun v : Option Int => v.isNone) (OptionalParam (IntegerParam "k"))).serialize
        [some 1] [] = [("k", "1")] :=
  ⟨(arrayParam_serialize_stops _ _ []).2.2 [some 1] none [some 2] (by decide) (by decide),
    by decide⟩

/-! ## totalUnread bookkeeping -/

theorem unreadEntry_setA_le (pm : List (String × Nat)) (k : String) (i : Nat)
    (hp : lookupA pm k = some i) (kv : String × List String) :
    unreadEntry (setA pm k (i + 1)) kv ≤ unreadEntry pm kv := by
  unfold unreadEntry
  by_cases hk : kv.1 = k
  · rw [hk, lookupA_setA_self, hp]
    simp only [Option.getD_some]
    omega
  · rw [lookupA_setA_ne _ _ _ _ hk]

theorem totalUnread_eq_map (c : SearchParamContext) :
    c.totalUnread = (c.valueMap.map (unreadEntry c.progress)).sum := rfl

theorem sum_unreadEntry_setA_lt
    (vm : List (String × List String)) (pm : List (String × Nat)) (k : String) (i : Nat)
    (vs : List String) (hp : lookupA pm k = some i) (hv : lookupA vm k = some vs)
    (hlt : i < vs.length) :
    (vm.map (unreadEntry (setA pm k (i + 1)))).sum < (vm.map (unreadEntry pm)).sum := by
  induction vm with
  | nil => simp [lookupA] at hv
  | cons kv rest ih =>
    obtain ⟨k2, vs2⟩ := kv
    simp only [List.map_cons, List.sum_cons]
    by_cases hk : k2 = k
    · subst hk
      simp [lookupA] at hv
      subst hv
      have hhead : unreadEntry (setA pm k2 (i + 1)) (k2, vs2) < unreadEntry pm (k2, vs2) := by
        unfold unreadEntry
        simp only [lookupA_setA_self, hp, Option.getD_some]
        omega
      have htail : (rest.map (unreadEntry (setA pm k2 (i + 1)))).sum ≤
          (rest.map (unreadEntry pm)).sum :=
        List.sum_le_sum (fun kv2 _ => unreadEntry_setA_le pm k2 i hp kv2)
      omega
    · simp only [lookupA, if_neg hk] at hv
      have hhead : unreadEntry (setA pm k (i + 1)) (k2, vs2) = unreadEntry pm (k2, vs2) := by
        unfold unreadEntry
        rw [lookupA_setA_ne _ _ _ _ hk]
      have htail := ih hv
      omega

theorem totalUnread_get_success {c c2 : SearchParamContext} {k v : String}
    (h : c.get k = (c2, .success v)) : c2.totalUnread < c.totalUnread := by
  obtain ⟨i, vs, hp, hv, hget, rfl⟩ := get_success h
  have hlt : i < vs.length := (List.getElem?_eq_some_iff.mp hget).1
  rw [totalUnread_eq_map, totalUnread_eq_map]
  exact sum_unreadEntry_setA_lt c.valueMap c.progress k i vs hp hv hlt

/-! ## Claim C5 (ArrayParam stops at the first element error) -/

theorem arrayParseAux_succ {T : Type} (m : SearchParamMapping T) (fuel : Nat)
    (params : SearchParamContext) :
    arrayParseAux m (fuel + 1) params =
      match m.parse params with
      | .ok remainder head =>
        if head.isError then .ok params (SuccessResult [])
        else
          match arrayParseAux m fuel remainder with
          | .ok remainder2 tail => .ok remainder2 (Result.map2 (fun x y => x :: y) head tail)
          | .thrown e => .thrown e
          | .diverge => .diverge
      | .thrown e => .thrown e
      | .diverge => .diverge := rfl

theorem ParsesSeqC_totalUnread_le {T : Type} (m : SearchParamMapping T) :
    ∀ (vs : List T) (c cN : SearchParamContext),
      ParsesSeqC m c vs cN → cN.totalUnread ≤ c.totalUnread := by
  intro vs
  induction vs with
  | nil =>
    intro c cN h
    have hc : c = cN := h
    rw [hc]
  | cons v vs ih =>
    intro c cN h
    obtain ⟨c2, _, hdec, hrest⟩ := h
    have := ih c2 cN hrest
    omega

theorem arrayParseAux_chain {T : Type} (m : SearchParamMapping T)
    {cE : SearchParamContext} {es ws : List String} :
    ∀ (vs : List T) (c cN : SearchParamContext) (fuel : Nat),
      ParsesSeqC m c vs cN → m.parse cN = .ok cE (.error es ws) →
      c.totalUnread < fuel →
      arrayParseAux m fuel c = .ok cN (.success vs) := by
  intro vs
  induction vs with
  | nil =>
    intro c cN fuel hseq herr hfuel
    have hc : c = cN := hseq
    subst hc
    match fuel, hfuel with
    | f + 1, _ =>
      rw [arrayParseAux_succ, herr]
      rfl
  | cons v vs ih =>
    intro c cN fuel hseq herr hfuel
    obtain ⟨c2, hp, hdec, hrest⟩ := hseq
    match fuel, hfuel with
    | f + 1, _ =>
      have hrec := ih c2 cN f hrest herr (by omega)
      simp only [arrayParseAux_succ, hp, hrec, Result.isError]
      rfl

/-- C5: when the element mapping parses `vs` successfully step by step (each
step consuming input) and then errors, `ArrayParam`'s parse returns the
context from just before the failing attempt together with a success carrying
the collected elements (for `vs = []` this is `success([])` — the empty
sequence is valid, never an error). -/
theorem arrayParam_stops_at_first_error {T : Type} (undef : T → Bool)
    (m : SearchParamMapping T) (c cN cE : SearchParamContext) (vs : List T)
    (es ws : List String)
    (hseq : ParsesSeqC m c vs cN) (herr : m.parse cN = .ok cE (.error es ws)) :
    (ArrayParam undef m).parse c = .ok cN (.success vs) := by
  show arrayParseAux m (c.totalUnread + 1) c = _
  exact arrayParseAux_chain m vs c cN (c.totalUnread + 1) hseq herr (by omega)

/-- C5 witness: the claim's example — an integer element mapping on
`tag=1&tag=2&tag=x` yields `success [1, 2]`, leaves the cursor for `tag` at 2
(just before `"x"`), and `"x"` is then reported as unconsumed. -/
theorem arrayParam_stops_at_first_error_witness :
    (ArrayParam (fun _ => false) (IntegerParam "tag")).parse
        (SearchParamContext.fromUrlSearchParams [("tag", "1"), ("tag", "2"), ("tag", "x")]) =
      .ok ⟨[("tag", 2)], [("tag", ["1", "2", "x"])]⟩ (.success [1, 2]) ∧
    SearchParamContext.remainingKeys ⟨[("tag", 2)], [("tag", ["1", "2", "x"])]⟩ = ["tag"] := by
  refine ⟨?_, by decide⟩
  exact arrayParam_stops_at_first_error (fun _ => false) (IntegerParam "tag") _
    ⟨[("tag", 2)], [("tag", ["1", "2", "x"])]⟩
    ⟨[("tag", 3)], [("tag", ["1", "2", "x"])]⟩ [1, 2]
    ["An integer search parameter [tag=x] could not be read as an integer."] []
    ⟨⟨[("tag", 1)], [("tag", ["1", "2", "x"])]⟩, by decide, by decide,
      ⟨[("tag", 2)], [("tag", ["1", "2", "x"])]⟩, by decide, by decide, rfl⟩
    (by decide)

/-! ## Claim C9 (array parse termination) -/

/-- With a `ConstParam` element the TS array parse loops forever: every
element attempt succeeds without consuming anything, so no amount of fuel
makes the embedded parse return. -/
theorem arrayParseAux_const_diverge {T : Type} (v : T) :
    ∀ (fuel : Nat) (c : SearchParamContext), arrayParseAux (ConstParam v) fuel c = .diverge := by
  intro fuel
  induction fuel with
  | zero => intro c; rfl
  | succ f ih =>
    intro c
    have hp : (ConstParam v).parse c = .ok c (.success v) := rfl
    simp only [arrayParseAux_succ, hp, Result.isError, ih c]
    rfl

/-- C9 counterexample: the claim says `ArrayParam(m).parse(c)` terminates for
every element Mapping; with `m = ConstParam 0` (cited by the claim) every
element attempt succeeds consuming nothing, and the parse diverges — here at
the concrete context built from `k=1`, via `arrayParseAux_const_diverge`,
which shows no fuel bound ever suffices. -/
theorem arrayParam_const_diverges :
    (ArrayParam (fun _ : Nat => false) (ConstParam (0 : Nat))).parse
        (SearchParamContext.fromUrlSearchParams [("k", "1")]) = .diverge :=
  arrayParseAux_const_diverge 0 _ _

theorem arrayParseAux_ok_of_consuming {T : Type} (m : SearchParamMapping T)
    (hok : ∀ c2 : SearchParamContext, ∃ c3 r, m.parse c2 = .ok c3 r)
    (hcons : ∀ (c2 c3 : SearchParamContext) (r : Result T),
      m.parse c2 = .ok c3 r → r.isError = false → c3.totalUnread < c2.totalUnread) :
    ∀ (fuel : Nat) (c : SearchParamContext), c.totalUnread < fuel →
      ∃ c2 r, arrayParseAux m fuel c = .ok c2 r := by
  intro fuel
  induction fuel with
  | zero => intro c h; omega
  | succ f ih =>
    intro c h
    obtain ⟨c3, r, hp⟩ := hok c
    by_cases he : r.isError = true
    · refine ⟨c, SuccessResult [], ?_⟩
      simp only [arrayParseAux_succ, hp, he]
      rfl
    · have he' : r.isError = false := by
        cases hb : r.isError
        · rfl
        · exact absurd hb he
      have hdec := hcons c c3 r hp he'
      obtain ⟨c4, r2, hrec⟩ := ih c3 (by omega)
      refine ⟨c4, Result.map2 (fun x y => x :: y) r r2, ?_⟩
      simp only [arrayParseAux_succ, hp, he', hrec]
      rfl

/-- C9 amended: array parsing terminates (returns a normal outcome) whenever
the element mapping always returns normally and strictly consumes input on
every non-error parse; this covers the spec's justification (each attempt
either consumes an occurrence or errors immediately), but it is a condition
on the element mapping, not a theorem about every mapping — `ConstParam`
elements diverge (see the counterexample). -/
theorem arrayParam_terminates_of_consuming {T : Type} (undef : T → Bool)
    (m : SearchParamMapping T) (c : SearchParamContext)
    (hok : ∀ c2 : SearchParamContext, ∃ c3 r, m.parse c2 = .ok c3 r)
    (hcons : ∀ (c2 c3 : SearchParamContext) (r : Result T),
      m.parse c2 = .ok c3 r → r.isError = false → c3.totalUnread < c2.totalUnread) :
    ∃ c2 r, (ArrayParam undef m).parse c = .ok c2 r := by
  show ∃ c2 r, arrayParseAux m (c.totalUnread + 1) c = .ok c2 r
  exact arrayParseAux_ok_of_consuming m hok hcons (c.totalUnread + 1) c (by omega)

theorem primitiveParam_parse_ok (k : String) (c : SearchParamContext) :
    ∃ c3 r, (PrimitiveParam k).parse c = .ok c3 r :=
  ⟨(c.get k).1, (c.get k).2, rfl⟩

theorem get_result_success_or_error (c : SearchParamContext) (k : String) :
    (∃ v, (c.get k).2 = .success v) ∨ (∃ es ws, (c.get k).2 = .error es ws) := by
  unfold SearchParamContext.get
  split
  · split
    · exact .inl ⟨_, rfl⟩
    · exact .inr ⟨_, _, rfl⟩
  · exact .inr ⟨_, _, rfl⟩

theorem primitiveParam_parse_consumes (k : String) (c c3 : SearchParamContext) (r : Result String)
    (h : (PrimitiveParam k).parse c = .ok c3 r) (he : r.isError = false) :
    c3.totalUnread < c.totalUnread := by
  have h2 : POut.ok (c.get k).1 (c.get k).2 = POut.ok c3 r := h
  rw [POut.ok.injEq] at h2
  obtain ⟨h21, h22⟩ := h2
  rcases get_result_success_or_error c k with ⟨v, hv⟩ | ⟨es, ws, hv⟩
  · have hget : c.get k = (c3, .success v) := by
      rw [← h21, ← hv]
    exact totalUnread_get_success hget
  · rw [hv] at h22
    rw [← h22] at he
    simp [Result.isError] at he

/-- C9 amended-theorem witness: `PrimitiveParam "k"` always returns normally
and consumes one occurrence per successful read, so its array parse
terminates at a concrete context. -/
theorem arrayParam_terminates_of_consuming_witness :
    ∃ c2 r, (ArrayParam (fun _ => false) (PrimitiveParam "k")).parse
        (SearchParamContext.fromUrlSearchParams [("k", "1"), ("k", "2")]) = .ok c2 r :=
  arrayParam_terminates_of_consuming (fun _ => false) (PrimitiveParam "k")
    (SearchParamContext.fromUrlSearchParams [("k", "1"), ("k", "2")])
    (primitiveParam_parse_ok "k")
    (primitiveParam_parse_consumes "k")

/-! ## Claim C1: serialization structure lemmas -/

theorem getAllP_append (p1 p2 : List (String × String)) (k : String) :
    getAllP (p1 ++ p2) k = getAllP p1 k ++ getAllP p2 k := by
  simp [getAllP]

theorem getAllP_nil (k : String) : getAllP [] k = [] := rfl

theorem getAllP_single (k0 v k : String) :
    getAllP [(k0, v)] k = if k0 = k then [v] else [] := by
  by_cases h : k0 = k <;> simp [getAllP, h]

theorem serialize_str (k0 : String) (v : String) (p : List (String × String)) :
    (Comb.str k0).denote.serialize v p = p ++ [(k0, encodeURIComponent v)] := rfl

theorem serialize_integer (k0 : String) (v : Int) (p : List (String × String)) :
    (Comb.integer k0).denote.serialize v p = p ++ [(k0, encodeURIComponent (intToString v))] := rfl

theorem serialize_enum (vs : List String) (k0 : String) (v : String) (p : List (String × String)) :
    (Comb.enum vs k0).denote.serialize v p = p ++ [(k0, encodeURIComponent v)] := rfl

theorem serialize_const {T : Type} (deq : DecidableEq T) (v0 v : T) (p : List (String × String)) :
    (Comb.const deq v0).denote.serialize v p = p := rfl

theorem serialize_opt_none {T : Type} (m : Comb T) (p : List (String × String)) :
    (Comb.opt m).denote.serialize none p = p := rfl

theorem serialize_opt_some {T : Type} (m : Comb T) (w : T) (p : List (String × String)) :
    (Comb.opt m).denote.serialize (some w) p = m.denote.serialize w p := rfl

theorem serialize_dflt {T : Type} (deq : DecidableEq T) (m : Comb T) (d v : T)
    (p : List (String × String)) :
    (Comb.dflt deq m d).denote.serialize v p =
      @ite _ (v = d) (deq v d) p (m.denote.serialize v p) := rfl

theorem serialize_arr {T : Type} (m : Comb T) (es : List T) (p : List (String × String)) :
    (Comb.arr m).denote.serialize es p = arraySerialize m.undefVal m.denote es p := rfl

theorem serialize_pair {A B : Type} (f : Comb A) (g : Comb B) (v : A × B)
    (p : List (String × String)) :
    (Comb.pair f g).denote.serialize v p =
      g.denote.serialize v.2 (f.denote.serialize v.1 p) := rfl

theorem arraySerialize_append {T : Type} (undef : T → Bool) (m : SearchParamMapping T)
    (hm : ∀ (v : T) (p : List (String × String)), m.serialize v p = p ++ m.serialize v []) :
    ∀ (es : List T) (p : List (String × String)),
      arraySerialize undef m es p = p ++ arraySerialize undef m es [] := by
  intro es
  induction es with
  | nil => intro p; simp [arraySerialize_nil_eq]
  | cons e rest ih =>
    intro p
    rw [arraySerialize_cons_eq, arraySerialize_cons_eq]
    by_cases hu : undef e = true
    · rw [if_pos hu, if_pos hu]
      simp
    · rw [if_neg hu, if_neg hu]
      rw [ih (m.serialize e p), ih (m.serialize e []), hm e p]
      simp

/-- Serialization is accumulator-appending: serializing into `p` appends the
same pairs that serializing into an empty accumulator produces. -/
theorem serialize_append {T : Type} (c : Comb T) :
    ∀ (v : T) (p : List (String × String)),
      c.denote.serialize v p = p ++ c.denote.serialize v [] := by
  induction c with
  | str k0 => intro v p; rw [serialize_str, serialize_str]; rfl
  | integer k0 => intro v p; rw [serialize_integer, serialize_integer]; rfl
  | enum vs k0 => intro v p; rw [serialize_enum, serialize_enum]; rfl
  | const deq v0 => intro v p; rw [serialize_const, serialize_const]; simp
  | opt m ih =>
    intro v p
    match v with
    | none => rw [serialize_opt_none, serialize_opt_none]; simp
    | some w => rw [serialize_opt_some, serialize_opt_some]; exact ih w p
  | dflt deq m d ih =>
    intro v p
    rw [serialize_dflt, serialize_dflt]
    by_cases h : v = d
    · rw [if_pos h, if_pos h]; simp
    · rw [if_neg h, if_neg h]; exact ih v p
  | arr m ih =>
    intro es p
    rw [serialize_arr, serialize_arr]
    exact arraySerialize_append m.undefVal m.denote ih es p
  | pair f g ihf ihg =>
    intro v p
    rw [serialize_pair, serialize_pair]
    rw [ihg v.2 (f.denote.serialize v.1 p), ihf v.1 p,
      ihg v.2 (f.denote.serialize v.1 [])]
    simp

/-- Every pair written by a combinator's serialization carries one of its keys. -/
theorem serialize_keys {T : Type} (c : Comb T) :
    ∀ (v : T), ∀ kv ∈ c.denote.serialize v [], kv.1 ∈ c.keys := by
  induction c with
  | str k0 => intro v kv hkv; simp [serialize_str] at hkv; simp [hkv, Comb.keys]
  | integer k0 => intro v kv hkv; simp [serialize_integer] at hkv; simp [hkv, Comb.keys]
  | enum vs k0 => intro v kv hkv; simp [serialize_enum] at hkv; simp [hkv, Comb.keys]
  | const deq v0 => intro v kv hkv; simp [serialize_const] at hkv
  | opt m ih =>
    intro v kv hkv
    match v with
    | none => simp [serialize_opt_none] at hkv
    | some w =>
      rw [serialize_opt_some] at hkv
      exact ih w kv hkv
  | dflt deq m d ih =>
    intro v kv hkv
    rw [serialize_dflt] at hkv
    by_cases h : v = d
    · rw [if_pos h] at hkv; simp at hkv
    · rw [if_neg h] at hkv
      exact ih v kv hkv
  | arr m ih =>
    intro es kv hkv
    rw [serialize_arr] at hkv
    show kv.1 ∈ m.keys
    induction es with
    | nil => simp [arraySerialize_nil_eq] at hkv
    | cons e rest ih2 =>
      rw [arraySerialize_cons_eq] at hkv
      by_cases hu : m.undefVal e = true
      · rw [if_pos hu] at hkv; simp at hkv
      · rw [if_neg hu] at hkv
        rw [arraySerialize_append m.undefVal m.denote (serialize_append m) rest] at hkv
        rcases List.mem_append.mp hkv with h1 | h1
        · rw [serialize_append m] at h1
          simp only [List.nil_append] at h1
          exact ih e kv h1
        · exact ih2 h1
  | pair f g ihf ihg =>
    intro v kv hkv
    rw [serialize_pair, serialize_append g] at hkv
    rcases List.mem_append.mp hkv with h1 | h1
    · exact List.mem_append.mpr (.inl (ihf v.1 kv h1))
    · exact List.mem_append.mpr (.inr (ihg v.2 kv h1))

theorem getAllP_eq_nil_of_not_mem (p : List (String × String)) (k : String)
    (h : ∀ kv ∈ p, kv.1 ≠ k) : getAllP p k = [] := by
  induction p with
  | nil => rfl
  | cons kv rest ih =>
    simp only [getAllP, List.filter_cons]
    rw [decide_eq_false (h kv (by simp))]
    exact ih (fun kv2 hkv2 => h kv2 (by simp [hkv2]))

/-- A combinator writes nothing under keys it does not own. -/
theorem serOccK_eq_nil_of_not_mem {T : Type} (c : Comb T) (v : T) (k : String)
    (h : k ∉ c.keys) : serOccK c v k = [] := by
  unfold serOccK
  exact getAllP_eq_nil_of_not_mem _ k
    (fun kv hkv hk => h (hk ▸ serialize_keys c v kv hkv))

theorem serOccK_pair {A B : Type} (f : Comb A) (g : Comb B) (v : A × B) (k : String) :
    serOccK (Comb.pair f g) v k = serOccK f v.1 k ++ serOccK g v.2 k := by
  unfold serOccK
  rw [serialize_pair, serialize_append g, getAllP_append]

theorem serOccK_opt_some {T : Type} (m : Comb T) (w : T) (k : String) :
    serOccK (Comb.opt m) (some w) k = serOccK m w k := rfl

theorem serOccK_opt_none {T : Type} (m : Comb T) (k : String) :
    serOccK (Comb.opt m) (none : Option T) k = [] := rfl

theorem serOccK_arr_cons {T : Type} (m : Comb T) (e : T) (es : List T) (k : String)
    (hu : m.undefVal e = false) :
    serOccK (Comb.arr m) (e :: es) k = serOccK m e k ++ serOccK (Comb.arr m) es k := by
  unfold serOccK
  rw [serialize_arr, arraySerialize_cons_eq, if_neg (by simp [hu]), serialize_arr]
  rw [arraySerialize_append m.undefVal m.denote (serialize_append m) es]
  rw [serialize_append m]
  simp only [List.nil_append]
  rw [getAllP_append]

theorem serOccK_arr_nil {T : Type} (m : Comb T) (k : String) :
    serOccK (Comb.arr m) ([] : List T) k = [] := rfl

/-! ## Claim C1: context helper lemmas -/

theorem lookupA_mem {α : Type} (l : List (String × α)) (k : String) (v : α)
    (h : lookupA l k = some v) : (k, v) ∈ l := by
  induction l with
  | nil => simp [lookupA] at h
  | cons kv rest ih =>
    obtain ⟨k2, w⟩ := kv
    simp only [lookupA] at h
    by_cases hk : k2 = k
    · rw [if_pos hk] at h
      subst hk
      simp only [Option.some.injEq] at h
      simp [h]
    · rw [if_neg hk] at h
      simp [ih h]

theorem unread_length (c : SearchParamContext) (k : String) :
    (c.unread k).length =
      ((lookupA c.valueMap k).getD []).length -
        min ((lookupA c.progress k).getD 0) ((lookupA c.valueMap k).getD []).length := by
  unfold SearchParamContext.unread
  rw [List.length_drop]
  omega

theorem unread_length_le_totalUnread (c : SearchParamContext) (k : String) :
    (c.unread k).length ≤ c.totalUnread := by
  rcases hv : lookupA c.valueMap k with _ | vs
  · unfold SearchParamContext.unread
    rw [hv]
    simp
  · have hmem : (k, vs) ∈ c.valueMap := lookupA_mem _ _ _ hv
    have hterm : (c.unread k).length = unreadEntry c.progress (k, vs) := by
      rw [unread_length, hv]
      unfold unreadEntry
      simp
    rw [hterm, totalUnread_eq_map]
    exact List.single_le_sum (fun x _ => Nat.zero_le x) _
      (List.mem_map.mpr ⟨(k, vs), hmem, rfl⟩)

theorem mem_dedupKeys (l : List String) (k : String) : k ∈ dedupKeys l ↔ k ∈ l := by
  induction l with
  | nil => simp [dedupKeys]
  | cons k2 rest ih =>
    simp only [dedupKeys, List.mem_cons, List.mem_filter]
    constructor
    · rintro (h | ⟨h, _⟩)
      · simp [h]
      · simp [ih.mp h]
    · rintro (h | h)
      · exact .inl h
      · by_cases hk : k = k2
        · exact .inl hk
        · exact .inr ⟨ih.mpr h, by simpa using hk⟩

theorem lookupA_map_fn {α : Type} (ks : List String) (f : String → α) (k : String) :
    lookupA (ks.map (fun k2 => (k2, f k2))) k = if k ∈ ks then some (f k) else none := by
  induction ks with
  | nil => simp [lookupA]
  | cons k2 rest ih =>
    simp only [List.map_cons, lookupA]
    by_cases hk : k2 = k
    · subst hk
      simp
    · rw [if_neg hk, ih]
      by_cases hm : k ∈ rest
      · rw [if_pos hm, if_pos (List.mem_cons.mpr (.inr hm))]
      · rw [if_neg hm,
          if_neg (fun hc => (List.mem_cons.mp hc).elim (fun hh => hk hh.symm) hm)]

theorem getAllP_eq_nil_of_not_mem_keys (p : List (String × String)) (k : String)
    (h : k ∉ p.map (fun kv => kv.1)) : getAllP p k = [] := by
  refine getAllP_eq_nil_of_not_mem p k (fun kv hkv hk => h ?_)
  exact List.mem_map.mpr ⟨kv, hkv, hk⟩

theorem unread_fromUrl (p : List (String × String)) (k : String) :
    (SearchParamContext.fromUrlSearchParams p).unread k = getAllP p k := by
  unfold SearchParamContext.unread SearchParamContext.fromUrlSearchParams
  simp only
  rw [lookupA_map_fn, lookupA_map_fn]
  by_cases h : k ∈ dedupKeys (p.map (fun kv => kv.1))
  · rw [if_pos h, if_pos h]
    simp
  · rw [if_neg h, if_neg h]
    simp only [Option.getD_none, List.drop_nil]
    exact (getAllP_eq_nil_of_not_mem_keys p k (fun hm => h ((mem_dedupKeys _ k).mpr hm))).symm

theorem WFc_fromUrl (p : List (String × String)) :
    WFc (SearchParamContext.fromUrlSearchParams p) := by
  intro k
  unfold SearchParamContext.fromUrlSearchParams
  simp only
  rw [lookupA_map_fn, lookupA_map_fn]
  by_cases h : k ∈ dedupKeys (p.map (fun kv => kv.1)) <;> simp [h]

theorem unread_after {c c2 : SearchParamContext} (occlen : String → Nat)
    (hWF : WFc c) (hA : c2.valueMap = c.valueMap)
    (hB : ∀ k, lookupA c2.progress k =
      Option.map (fun i => i + occlen k) (lookupA c.progress k)) :
    ∀ k, c2.unread k = (c.unread k).drop (occlen k) := by
  intro k
  unfold SearchParamContext.unread
  rw [hA, hB k]
  rcases hv : lookupA c.valueMap k with _ | vs
  · simp
  · have hp : (lookupA c.progress k).isSome := hWF k (by simp [hv])
    rcases hpp : lookupA c.progress k with _ | i
    · rw [hpp] at hp; simp at hp
    · have hms : Option.map (fun j => j + occlen k) (some i) = some (i + occlen k) := rfl
      rw [hms]
      simp only [Option.getD_some, List.drop_drop]

theorem WFc_after {c c2 : SearchParamContext} (occlen : String → Nat)
    (hWF : WFc c) (hA : c2.valueMap = c.valueMap)
    (hB : ∀ k, lookupA c2.progress k =
      Option.map (fun i => i + occlen k) (lookupA c.progress k)) : WFc c2 := by
  intro k hv
  rw [hA] at hv
  rw [hB k]
  have hps := hWF k hv
  rcases hpp : lookupA c.progress k with _ | i
  · rw [hpp] at hps; simp at hps
  · simp

theorem get_eq_success_of {c : SearchParamContext} {k : String} {i : Nat} {vs : List String}
    {x : String} (hp : lookupA c.progress k = some i) (hv : lookupA c.valueMap k = some vs)
    (hg : vs[i]? = some x) :
    c.get k = (⟨setA c.progress k (i + 1), c.valueMap⟩, .success x) := by
  unfold SearchParamContext.get
  rw [hp, hv]
  simp [hg, SuccessResult]

theorem unread_cons_parts {c : SearchParamContext} {k : String} {x : String} {rest : List String}
    (hWF : WFc c) (h : c.unread k = x :: rest) :
    ∃ i vs, lookupA c.progress k = some i ∧ lookupA c.valueMap k = some vs ∧
      vs[i]? = some x := by
  unfold SearchParamContext.unread at h
  rcases hv : lookupA c.valueMap k with _ | vs
  · rw [hv] at h; simp at h
  · have hps : (lookupA c.progress k).isSome := hWF k (by simp [hv])
    rcases hp : lookupA c.progress k with _ | i
    · rw [hp] at hps; simp at hps
    · rw [hv, hp] at h
      simp only [Option.getD_some] at h
      refine ⟨i, vs, rfl, rfl, ?_⟩
      have : (vs.drop i)[0]? = some x := by rw [h]; simp
      rw [List.getElem?_drop] at this
      simpa using this

theorem get_error_of_unread_nil {c : SearchParamContext} {k : String}
    (h : c.unread k = []) :
    ∃ c2 es ws, c.get k = (c2, .error es ws) := by
  rcases get_result_success_or_error c k with ⟨v, hv⟩ | ⟨es, ws, hv⟩
  · exfalso
    have hpair : c.get k = ((c.get k).1, .success v) := by
      rw [← hv]
    obtain ⟨i, vs, hp, hvm, hg, _⟩ := get_success hpair
    have hlt : i < vs.length := (List.getElem?_eq_some_iff.mp hg).1
    unfold SearchParamContext.unread at h
    rw [hp, hvm] at h
    simp only [Option.getD_some] at h
    rw [List.drop_eq_nil_iff] at h
    omega
  · exact ⟨(c.get k).1, es, ws, by rw [← hv]⟩

/-! ## Claim C1: rigid combinator parsing -/

theorem serOccK_str (k0 : String) (v : String) (k : String) :
    serOccK (Comb.str k0) v k = if k0 = k then [encodeURIComponent v] else [] := by
  rw [serOccK, serialize_str, List.nil_append, getAllP_single]

theorem serOccK_integer (k0 : String) (v : Int) (k : String) :
    serOccK (Comb.integer k0) v k =
      if k0 = k then [encodeURIComponent (intToString v)] else [] := by
  rw [serOccK, serialize_integer, List.nil_append, getAllP_single]

theorem serOccK_enum (vs0 : List String) (k0 : String) (v : String) (k : String) :
    serOccK (Comb.enum vs0 k0) v k = if k0 = k then [encodeURIComponent v] else [] := by
  rw [serOccK, serialize_enum, List.nil_append, getAllP_single]

theorem serOccK_const {T : Type} (deq : DecidableEq T) (v0 v : T) (k : String) :
    serOccK (Comb.const deq v0) v k = [] := rfl

theorem setA_progress_B (pm : List (String × Nat)) (k0 : String) (i : Nat) (x : String)
    (hp : lookupA pm k0 = some i) :
    ∀ k, lookupA (setA pm k0 (i + 1)) k =
      Option.map (fun j => j + (if k0 = k then [x] else []).length) (lookupA pm k) := by
  intro k
  by_cases hk : k0 = k
  · subst hk
    rw [lookupA_setA_self, hp]
    simp
  · rw [lookupA_setA_ne _ _ _ _ (fun hh => hk hh.symm)]
    rw [if_neg hk]
    rcases lookupA pm k with _ | j <;> simp

theorem stringParam_parse_of_prefix (k0 v0 : String) {ctx : SearchParamContext}
    (hWF : WFc ctx) (hpre : ∃ rest, ctx.unread k0 = encodeURIComponent v0 :: rest) :
    ∃ i, lookupA ctx.progress k0 = some i ∧
      (StringParam k0).parse ctx =
        .ok ⟨setA ctx.progress k0 (i + 1), ctx.valueMap⟩ (.success v0) := by
  obtain ⟨rest, hu⟩ := hpre
  obtain ⟨i, vs, hp, hv, hg⟩ := unread_cons_parts hWF hu
  have hget := get_eq_success_of hp hv hg
  refine ⟨i, hp, ?_⟩
  have hprim : (PrimitiveParam k0).parse ctx =
      .ok ⟨setA ctx.progress k0 (i + 1), ctx.valueMap⟩ (.success (encodeURIComponent v0)) := by
    show POut.ok (ctx.get k0).1 (ctx.get k0).2 = _
    rw [hget]
  show (SearchParamMapping.map decodeURIComponent encodeURIComponent (PrimitiveParam k0)).parse ctx = _
  rw [SearchParamMapping.map]
  simp only [hprim, decodeURIComponent_encodeURIComponent]

theorem result_bind_success {U V : Type} (f : U → Result V) (u : U) :
    Result.bind f (.success u) = f u := rfl

theorem bindResult_parse_eq {U V : Type} (f : U → Result V) (g : V → U)
    (m : SearchParamMapping U) (c : SearchParamContext) (c2 : SearchParamContext)
    (r : Result U) (h : m.parse c = .ok c2 r) :
    (SearchParamMapping.bindResult f g m).parse c = .ok c2 (Result.bind f r) := by
  rw [SearchParamMapping.bindResult]
  simp only [h]

theorem objectParam2_parse_eq {α β : Type} (m1 : SearchParamMapping α)
    (m2 : SearchParamMapping β) (c c1 : SearchParamContext) (a : α)
    (h1 : m1.parse c = .ok c1 (.success a)) :
    (ObjectParam2 m1 m2).parse c = POut.map (fun b => (a, b)) (m2.parse c1) := by
  rw [ObjectParam2]
  simp only [objStep, prBind, POut.map, h1, Result.map, SuccessResult]

theorem optmap_add_comp (o : Option Nat) (a b : Nat) :
    Option.map (fun i => i + b) (Option.map (fun i => i + a) o) =
      Option.map (fun i => i + (a + b)) o := by
  cases o <;> simp [Nat.add_assoc]

/-- Rigid combinators parse exactly their own serialized occurrences from any
context whose unread streams start with them, regardless of what follows. -/
theorem rigid_parse_robust {T : Type} (c : Comb T) (hR : c.rigid = true) :
    ∀ (v : T), c.accepts v = true →
    ∀ ctx : SearchParamContext, WFc ctx →
    (∀ k, ∃ rest, ctx.unread k = serOccK c v k ++ rest) →
    ParseExact c.denote v (serOccK c v) ctx := by
  induction c with
  | str k0 =>
    intro v _ ctx hWF hpre
    obtain ⟨i, hp, hparse⟩ := stringParam_parse_of_prefix k0 v hWF
      (by
        obtain ⟨rest, hu⟩ := hpre k0
        rw [serOccK_str, if_pos rfl] at hu
        exact ⟨rest, hu⟩)
    refine ⟨_, hparse, rfl, ?_⟩
    intro k
    rw [serOccK_str]
    exact setA_progress_B ctx.progress k0 i (encodeURIComponent v) hp k
  | integer k0 =>
    intro v _ ctx hWF hpre
    obtain ⟨i, hp, hparse⟩ := stringParam_parse_of_prefix k0 (intToString v) hWF
      (by
        obtain ⟨rest, hu⟩ := hpre k0
        rw [serOccK_integer, if_pos rfl] at hu
        exact ⟨rest, hu⟩)
    refine ⟨⟨setA ctx.progress k0 (i + 1), ctx.valueMap⟩, ?_, rfl, ?_⟩
    · show (SearchParamMapping.bindResult _ _ (StringParam k0)).parse ctx = _
      rw [bindResult_parse_eq _ _ _ _ _ _ hparse, result_bind_success]
      simp only [jsParseInt_intToString]
      rw [if_neg (fun hne : intToString v ≠ intToString v => hne rfl)]
      rfl
    · intro k
      rw [serOccK_integer]
      exact setA_progress_B ctx.progress k0 i (encodeURIComponent (intToString v)) hp k
  | enum vs0 k0 =>
    intro v hacc ctx hWF hpre
    obtain ⟨i, hp, hparse⟩ := stringParam_parse_of_prefix k0 v hWF
      (by
        obtain ⟨rest, hu⟩ := hpre k0
        rw [serOccK_enum, if_pos rfl] at hu
        exact ⟨rest, hu⟩)
    refine ⟨⟨setA ctx.progress k0 (i + 1), ctx.valueMap⟩, ?_, rfl, ?_⟩
    · show (SearchParamMapping.bindResult _ _ (StringParam k0)).parse ctx = _
      rw [bindResult_parse_eq _ _ _ _ _ _ hparse, result_bind_success]
      have hc : vs0.contains v = true := hacc
      simp only [hc, if_true]
      rfl
    · intro k
      rw [serOccK_enum]
      exact setA_progress_B ctx.progress k0 i (encodeURIComponent v) hp k
  | const deq v0 =>
    intro v hacc ctx hWF hpre
    have hv : v = v0 := of_decide_eq_true hacc
    subst hv
    refine ⟨ctx, rfl, rfl, ?_⟩
    intro k
    rw [serOccK_const]
    rcases lookupA ctx.progress k with _ | j <;> simp
  | opt m ih => intro v hacc ctx hWF hpre; simp [Comb.rigid] at hR
  | dflt deq m d ih => intro v hacc ctx hWF hpre; simp [Comb.rigid] at hR
  | arr m ih => intro v hacc ctx hWF hpre; simp [Comb.rigid] at hR
  | pair f g ihf ihg =>
    intro v hacc ctx hWF hpre
    rw [Comb.rigid, Bool.and_eq_true] at hR
    rw [Comb.accepts, Bool.and_eq_true] at hacc
    obtain ⟨ctx1, hp1, hA1, hB1⟩ := ihf hR.1 v.1 hacc.1 ctx hWF
      (fun k => by
        obtain ⟨rest, hu⟩ := hpre k
        rw [serOccK_pair] at hu
        exact ⟨serOccK g v.2 k ++ rest, by rw [hu, List.append_assoc]⟩)
    have hWF1 : WFc ctx1 := WFc_after _ hWF hA1 hB1
    have hu1 : ∀ k, ctx1.unread k = (ctx.unread k).drop (serOccK f v.1 k).length :=
      unread_after _ hWF hA1 hB1
    obtain ⟨ctx2, hp2, hA2, hB2⟩ := ihg hR.2 v.2 hacc.2 ctx1 hWF1
      (fun k => by
        obtain ⟨rest, hu⟩ := hpre k
        rw [serOccK_pair] at hu
        refine ⟨rest, ?_⟩
        rw [hu1 k, hu, List.append_assoc, List.drop_left])
    refine ⟨ctx2, ?_, by rw [hA2, hA1], ?_⟩
    · show (ObjectParam2 f.denote g.denote).parse ctx = _
      rw [objectParam2_parse_eq _ _ _ _ _ hp1]
      rw [hp2]
      show POut.ok ctx2 (Result.map (fun b => (v.1, b)) (.success v.2)) = _
      rw [Result.map]
    · intro k
      rw [hB2 k, hB1 k, optmap_add_comp]
      rw [serOccK_pair]
      simp

/-! ## Claim C1: parsing with exhausted keys -/

theorem result_bind_error {U V : Type} (f : U → Result V) (es ws : List String) :
    Result.bind f (.error es ws) = (.error es ws : Result V) := rfl

theorem stringParam_parse_error_of_nil {k0 : String} {ctx : SearchParamContext}
    (h : ctx.unread k0 = []) :
    ∃ c2 es ws, (StringParam k0).parse ctx = .ok c2 (.error es ws) := by
  obtain ⟨c2, es, ws, hget⟩ := get_error_of_unread_nil h
  have hprim : (PrimitiveParam k0).parse ctx = .ok c2 (.error es ws) := by
    show POut.ok (ctx.get k0).1 (ctx.get k0).2 = _
    rw [hget]
  refine ⟨c2, es, ws, ?_⟩
  show (SearchParamMapping.map decodeURIComponent encodeURIComponent (PrimitiveParam k0)).parse ctx = _
  rw [SearchParamMapping.map]
  simp only [hprim]

theorem optParam_err {T : Type} {m : SearchParamMapping T} {c c2 : SearchParamContext}
    {es ws : List String} (h : m.parse c = .ok c2 (.error es ws)) :
    (OptionalParam m).parse c = .ok c (.success none) := by
  rw [OptionalParam]
  simp only [h, SuccessResult]

theorem optParam_succ {T : Type} {m : SearchParamMapping T} {c c2 : SearchParamContext}
    {d : T} (h : m.parse c = .ok c2 (.success d)) :
    (OptionalParam m).parse c = .ok c2 (.success (some d)) := by
  rw [OptionalParam]
  simp only [h]

theorem dfltParam_err {T : Type} {m : SearchParamMapping T} {d : T} [DecidableEq T]
    {c c2 : SearchParamContext} {es ws : List String}
    (h : m.parse c = .ok c2 (.error es ws)) :
    (DefaultParam m d).parse c = .ok c (.success d) := by
  rw [DefaultParam]
  simp only [h, SuccessResult]

theorem dfltParam_succ {T : Type} {m : SearchParamMapping T} {d : T} [DecidableEq T]
    {c c2 : SearchParamContext} {w : T} (h : m.parse c = .ok c2 (.success w)) :
    (DefaultParam m d).parse c = .ok c2 (.success w) := by
  rw [DefaultParam]
  simp only [h]

theorem objectParam2_parse_err1 {α β : Type} (m1 : SearchParamMapping α)
    (m2 : SearchParamMapping β) {c c1 : SearchParamContext} {es ws : List String}
    (h1 : m1.parse c = .ok c1 (.error es ws)) :
    (ObjectParam2 m1 m2).parse c = .ok c1 (.error es ws) := by
  rw [ObjectParam2]
  simp only [objStep, prBind, POut.map, h1, Result.map, SuccessResult]

theorem rigid_wellKeyed {T : Type} (c : Comb T) (h : c.rigid = true) : c.wellKeyed = true := by
  induction c with
  | str k0 => rfl
  | integer k0 => rfl
  | enum vs0 k0 => rfl
  | const deq v0 => rfl
  | opt m ih => simp [Comb.rigid] at h
  | dflt deq m d ih => simp [Comb.rigid] at h
  | arr m ih => simp [Comb.rigid] at h
  | pair f g ihf ihg =>
    rw [Comb.rigid, Bool.and_eq_true] at h
    rw [Comb.wellKeyed]
    simp [ihf h.1, ihg h.2, h.1, h.2]

/-- On a context with no unread occurrences of any of its keys, a well-keyed
combinator errors if it can fail at all, and otherwise succeeds without
moving the context. -/
theorem exhausted_parse {T : Type} (c : Comb T) (hW : c.wellKeyed = true) :
    ∀ ctx : SearchParamContext, (∀ k, k ∈ c.keys → ctx.unread k = []) →
    (c.canFail = true → ∃ ctx2 es ws, c.denote.parse ctx = .ok ctx2 (.error es ws)) ∧
    (c.canFail = false → ∃ w, c.denote.parse ctx = .ok ctx (.success w)) := by
  induction c with
  | str k0 =>
    intro ctx hk
    constructor
    · intro _
      exact stringParam_parse_error_of_nil (hk k0 (by simp [Comb.keys]))
    · intro h
      simp [Comb.canFail] at h
  | integer k0 =>
    intro ctx hk
    constructor
    · intro _
      obtain ⟨c2, es, ws, hs⟩ := stringParam_parse_error_of_nil
        (hk k0 (by simp [Comb.keys]) : ctx.unread k0 = [])
      refine ⟨c2, es, ws, ?_⟩
      show (SearchParamMapping.bindResult _ _ (StringParam k0)).parse ctx = _
      rw [bindResult_parse_eq _ _ _ _ _ _ hs, result_bind_error]
    · intro h
      simp [Comb.canFail] at h
  | enum vs0 k0 =>
    intro ctx hk
    constructor
    · intro _
      obtain ⟨c2, es, ws, hs⟩ := stringParam_parse_error_of_nil
        (hk k0 (by simp [Comb.keys]) : ctx.unread k0 = [])
      refine ⟨c2, es, ws, ?_⟩
      show (SearchParamMapping.bindResult _ _ (StringParam k0)).parse ctx = _
      rw [bindResult_parse_eq _ _ _ _ _ _ hs, result_bind_error]
    · intro h
      simp [Comb.canFail] at h
  | const deq v0 =>
    intro ctx hk
    constructor
    · intro h
      simp [Comb.canFail] at h
    · intro _
      exact ⟨v0, rfl⟩
  | opt m ih =>
    intro ctx hk
    have hWm : m.wellKeyed = true := hW
    have hkm : ∀ k, k ∈ m.keys → ctx.unread k = [] := hk
    constructor
    · intro h
      simp [Comb.canFail] at h
    · intro _
      cases hm : m.canFail
      · obtain ⟨w, hs⟩ := (ih hWm ctx hkm).2 hm
        exact ⟨some w, optParam_succ hs⟩
      · obtain ⟨c2, es, ws, hs⟩ := (ih hWm ctx hkm).1 hm
        exact ⟨none, optParam_err hs⟩
  | dflt deq m d ih =>
    intro ctx hk
    have hWm : m.wellKeyed = true := hW
    have hkm : ∀ k, k ∈ m.keys → ctx.unread k = [] := hk
    constructor
    · intro h
      simp [Comb.canFail] at h
    · intro _
      cases hm : m.canFail
      · obtain ⟨w, hs⟩ := (ih hWm ctx hkm).2 hm
        exact ⟨w, @dfltParam_succ _ _ _ deq _ _ _ hs⟩
      · obtain ⟨c2, es, ws, hs⟩ := (ih hWm ctx hkm).1 hm
        exact ⟨d, @dfltParam_err _ _ _ deq _ _ _ _ hs⟩
  | arr m ih =>
    intro ctx hk
    rw [Comb.wellKeyed, Bool.and_eq_true] at hW
    constructor
    · intro h
      simp [Comb.canFail] at h
    · intro _
      have hWm := rigid_wellKeyed m hW.1
      obtain ⟨c2, es, ws, hs⟩ := (ih hWm ctx hk).1 hW.2
      refine ⟨[], ?_⟩
      show arrayParseAux m.denote (ctx.totalUnread + 1) ctx = _
      rw [arrayParseAux_succ, hs]
      rfl
  | pair f g ihf ihg =>
    intro ctx hk
    rw [Comb.wellKeyed, Bool.and_eq_true, Bool.and_eq_true] at hW
    have hkf : ∀ k, k ∈ f.keys → ctx.unread k = [] :=
      fun k hkk => hk k (by rw [Comb.keys]; exact List.mem_append.mpr (.inl hkk))
    have hkg : ∀ k, k ∈ g.keys → ctx.unread k = [] :=
      fun k hkk => hk k (by rw [Comb.keys]; exact List.mem_append.mpr (.inr hkk))
    constructor
    · intro hcf
      rw [Comb.canFail] at hcf
      cases hf : f.canFail
      · have hg : g.canFail = true := by
          rw [hf] at hcf
          simpa using hcf
        obtain ⟨w, hs1⟩ := (ihf hW.1.1 ctx hkf).2 hf
        obtain ⟨c2, es, ws, hs2⟩ := (ihg hW.1.2 ctx hkg).1 hg
        refine ⟨c2, es, ws, ?_⟩
        show (ObjectParam2 f.denote g.denote).parse ctx = _
        rw [objectParam2_parse_eq _ _ _ _ _ hs1, hs2]
        rfl
      · obtain ⟨c2, es, ws, hs1⟩ := (ihf hW.1.1 ctx hkf).1 hf
        exact ⟨c2, es, ws, objectParam2_parse_err1 f.denote g.denote hs1⟩
    · intro hcf
      rw [Comb.canFail, Bool.or_eq_false_iff] at hcf
      obtain ⟨w1, hs1⟩ := (ihf hW.1.1 ctx hkf).2 hcf.1
      obtain ⟨w2, hs2⟩ := (ihg hW.1.2 ctx hkg).2 hcf.2
      refine ⟨(w1, w2), ?_⟩
      show (ObjectParam2 f.denote g.denote).parse ctx = _
      rw [objectParam2_parse_eq _ _ _ _ _ hs1, hs2]
      rfl

/-! ## Claim C1: array element chains -/

theorem rigid_undefVal {T : Type} (c : Comb T) (h : c.rigid = true) :
    ∀ x, c.undefVal x = false := by
  cases c with
  | str k0 => intro x; rfl
  | integer k0 => intro x; rfl
  | enum vs0 k0 => intro x; rfl
  | const deq v0 => intro x; rfl
  | opt m => simp [Comb.rigid] at h
  | dflt deq m d => simp [Comb.rigid] at h
  | arr m => simp [Comb.rigid] at h
  | pair f g => intro x; rfl

/-- A failing-capable combinator owns a key under which every accepted value
serializes at least one occurrence. -/
theorem anchor_key {T : Type} (c : Comb T) (h : c.canFail = true) :
    ∃ k0, k0 ∈ c.keys ∧ ∀ v, c.accepts v = true → 1 ≤ (serOccK c v k0).length := by
  induction c with
  | str k0 =>
    exact ⟨k0, by simp [Comb.keys], fun v _ => by rw [serOccK_str, if_pos rfl]; simp⟩
  | integer k0 =>
    exact ⟨k0, by simp [Comb.keys], fun v _ => by rw [serOccK_integer, if_pos rfl]; simp⟩
  | enum vs0 k0 =>
    exact ⟨k0, by simp [Comb.keys], fun v _ => by rw [serOccK_enum, if_pos rfl]; simp⟩
  | const deq v0 => simp [Comb.canFail] at h
  | opt m ih => simp [Comb.canFail] at h
  | dflt deq m d ih => simp [Comb.canFail] at h
  | arr m ih => simp [Comb.canFail] at h
  | pair f g ihf ihg =>
    rw [Comb.canFail] at h
    cases hf : f.canFail
    · have hg : g.canFail = true := by rw [hf] at h; simpa using h
      obtain ⟨k0, hmem, hlen⟩ := ihg hg
      refine ⟨k0, by rw [Comb.keys]; exact List.mem_append.mpr (.inr hmem), ?_⟩
      intro v hacc
      rw [Comb.accepts, Bool.and_eq_true] at hacc
      rw [serOccK_pair]
      have := hlen v.2 hacc.2
      simp only [List.length_append]
      omega
    · obtain ⟨k0, hmem, hlen⟩ := ihf hf
      refine ⟨k0, by rw [Comb.keys]; exact List.mem_append.mpr (.inl hmem), ?_⟩
      intro v hacc
      rw [Comb.accepts, Bool.and_eq_true] at hacc
      rw [serOccK_pair]
      have := hlen v.1 hacc.1
      simp only [List.length_append]
      omega

theorem arr_chain_exact {T : Type} (m : Comb T) (hRm : m.rigid = true)
    (hCm : m.canFail = true) :
    ∀ (es : List T) (ctx : SearchParamContext) (fuel : Nat),
      (∀ e ∈ es, m.accepts e = true) → WFc ctx →
      (∀ k, k ∈ m.keys → ctx.unread k = serOccK (Comb.arr m) es k) →
      es.length + 1 ≤ fuel →
      ∃ ctx2, arrayParseAux m.denote fuel ctx = .ok ctx2 (.success es) ∧
        ctx2.valueMap = ctx.valueMap ∧
        (∀ k, lookupA ctx2.progress k =
          Option.map (fun i => i + (serOccK (Comb.arr m) es k).length)
            (lookupA ctx.progress k)) := by
  intro es
  induction es with
  | nil =>
    intro ctx fuel hacc hWF hx hfuel
    match fuel, hfuel with
    | f + 1, _ =>
      have hk : ∀ k, k ∈ m.keys → ctx.unread k = [] := fun k hkk => by
        rw [hx k hkk, serOccK_arr_nil]
      obtain ⟨c2, es2, ws2, herr⟩ :=
        (exhausted_parse m (rigid_wellKeyed m hRm) ctx hk).1 hCm
      refine ⟨ctx, ?_, rfl, ?_⟩
      · rw [arrayParseAux_succ, herr]
        rfl
      · intro k
        rw [serOccK_arr_nil]
        rcases lookupA ctx.progress k with _ | j <;> simp
  | cons e rest ih =>
    intro ctx fuel hacc hWF hx hfuel
    match fuel, hfuel with
    | f + 1, hf2 =>
      have hflen : rest.length + 1 ≤ f := by
        simp only [List.length_cons] at hf2
        omega
      have hue : m.undefVal e = false := rigid_undefVal m hRm e
      have hrob : ∀ k, ∃ r, ctx.unread k = serOccK m e k ++ r := by
        intro k
        by_cases hkk : k ∈ m.keys
        · exact ⟨serOccK (Comb.arr m) rest k,
            by rw [hx k hkk, serOccK_arr_cons m e rest k hue]⟩
        · exact ⟨ctx.unread k,
            by rw [serOccK_eq_nil_of_not_mem m e k hkk, List.nil_append]⟩
      obtain ⟨ctx1, hp1, hA1, hB1⟩ :=
        rigid_parse_robust m hRm e (hacc e (by simp)) ctx hWF hrob
      have hWF1 := WFc_after _ hWF hA1 hB1
      have hu1 := unread_after _ hWF hA1 hB1
      have hx1 : ∀ k, k ∈ m.keys → ctx1.unread k = serOccK (Comb.arr m) rest k := by
        intro k hkk
        rw [hu1 k, hx k hkk, serOccK_arr_cons m e rest k hue, List.drop_left]
      obtain ⟨ctx2, hp2, hA2, hB2⟩ :=
        ih ctx1 f (fun x hx2 => hacc x (by simp [hx2])) hWF1 hx1 hflen
      refine ⟨ctx2, ?_, by rw [hA2, hA1], ?_⟩
      · rw [arrayParseAux_succ, hp1]
        simp only [Result.isError, Bool.false_eq_true, if_false, hp2]
        rfl
      · intro k
        rw [hB2 k, hB1 k, optmap_add_comp]
        rw [serOccK_arr_cons m e rest k hue]
        simp

/-! ## Claim C1: the exact-consumption parse lemma -/

theorem serOccK_dflt_self {T : Type} (deq : DecidableEq T) (m : Comb T) (d : T) (k : String) :
    serOccK (Comb.dflt deq m d) d k = [] := by
  unfold serOccK
  rw [serialize_dflt, if_pos rfl]
  rfl

theorem serOccK_dflt_ne {T : Type} (deq : DecidableEq T) (m : Comb T) (d v : T)
    (h : v ≠ d) (k : String) : serOccK (Comb.dflt deq m d) v k = serOccK m v k := by
  unfold serOccK
  rw [serialize_dflt, if_neg h]

theorem robust_of_exact {T : Type} (c : Comb T) (v : T) (ctx : SearchParamContext)
    (hx : ∀ k, k ∈ c.keys → ctx.unread k = serOccK c v k) :
    ∀ k, ∃ rest, ctx.unread k = serOccK c v k ++ rest := by
  intro k
  by_cases h : k ∈ c.keys
  · exact ⟨[], by rw [hx k h, List.append_nil]⟩
  · exact ⟨ctx.unread k, by rw [serOccK_eq_nil_of_not_mem c v k h, List.nil_append]⟩

/-- A well-keyed combinator parses exactly its serialized occurrences: on a
context whose unread streams on the combinator's keys are exactly what the
combinator serializes for `v`, the parse succeeds with `v` and consumes them
all. -/
theorem wellKeyed_parse_exact {T : Type} (c : Comb T) :
    ∀ (hW : c.wellKeyed = true) (v : T) (hA : c.accepts v = true)
      (ctx : SearchParamContext) (hWF : WFc ctx)
      (hx : ∀ k, k ∈ c.keys → ctx.unread k = serOccK c v k),
      ParseExact c.denote v (serOccK c v) ctx := by
  induction c with
  | str k0 =>
    intro hW v hA ctx hWF hx
    exact rigid_parse_robust (Comb.str k0) rfl v hA ctx hWF (robust_of_exact _ v ctx hx)
  | integer k0 =>
    intro hW v hA ctx hWF hx
    exact rigid_parse_robust (Comb.integer k0) rfl v hA ctx hWF (robust_of_exact _ v ctx hx)
  | enum vs0 k0 =>
    intro hW v hA ctx hWF hx
    exact rigid_parse_robust (Comb.enum vs0 k0) rfl v hA ctx hWF (robust_of_exact _ v ctx hx)
  | const deq v0 =>
    intro hW v hA ctx hWF hx
    exact rigid_parse_robust (Comb.const deq v0) rfl v hA ctx hWF (robust_of_exact _ v ctx hx)
  | opt m ih =>
    intro hW v hA ctx hWF hx
    have hWm : m.wellKeyed = true := hW
    match v with
    | some w =>
      have hAm : m.accepts w = true := by simpa [Comb.accepts] using hA
      have hxm : ∀ k, k ∈ m.keys → ctx.unread k = serOccK m w k := by
        intro k hkk
        rw [← serOccK_opt_some m w k]
        exact hx k hkk
      obtain ⟨ctx2, hp, hA2, hB2⟩ := ih hWm w hAm ctx hWF hxm
      refine ⟨ctx2, optParam_succ hp, hA2, ?_⟩
      intro k
      rw [serOccK_opt_some]
      exact hB2 k
    | none =>
      have hCm : m.canFail = true := by simpa [Comb.accepts] using hA
      have hk : ∀ k, k ∈ m.keys → ctx.unread k = [] := by
        intro k hkk
        rw [hx k hkk, serOccK_opt_none]
      obtain ⟨c2, es, ws, herr⟩ := (exhausted_parse m hWm ctx hk).1 hCm
      refine ⟨ctx, optParam_err herr, rfl, ?_⟩
      intro k
      rw [serOccK_opt_none]
      rcases lookupA ctx.progress k with _ | j <;> simp
  | dflt deq m d ih =>
    intro hW v hA ctx hWF hx
    have hWm : m.wellKeyed = true := hW
    by_cases hvd : v = d
    · subst hvd
      have hCm : m.canFail = true := by
        simpa [Comb.accepts] using hA
      have hk : ∀ k, k ∈ m.keys → ctx.unread k = [] := by
        intro k hkk
        rw [hx k hkk, serOccK_dflt_self]
      obtain ⟨c2, es, ws, herr⟩ := (exhausted_parse m hWm ctx hk).1 hCm
      refine ⟨ctx, @dfltParam_err _ _ _ deq _ _ _ _ herr, rfl, ?_⟩
      intro k
      rw [serOccK_dflt_self]
      rcases lookupA ctx.progress k with _ | j <;> simp
    · have hAm : m.accepts v = true := by
        simpa [Comb.accepts, hvd] using hA
      have hxm : ∀ k, k ∈ m.keys → ctx.unread k = serOccK m v k := by
        intro k hkk
        rw [← serOccK_dflt_ne deq m d v hvd k]
        exact hx k hkk
      obtain ⟨ctx2, hp, hA2, hB2⟩ := ih hWm v hAm ctx hWF hxm
      refine ⟨ctx2, @dfltParam_succ _ _ _ deq _ _ _ hp, hA2, ?_⟩
      intro k
      rw [serOccK_dflt_ne deq m d v hvd]
      exact hB2 k
  | arr m ih =>
    intro hW es hA ctx hWF hx
    rw [Comb.wellKeyed, Bool.and_eq_true] at hW
    have hacc : ∀ e ∈ es, m.accepts e = true := by
      intro e he
      have := hA
      rw [Comb.accepts, List.all_eq_true] at this
      exact this e he
    obtain ⟨k0, hk0mem, hanchor⟩ := anchor_key m hW.2
    have hocc : ∀ es2, (∀ e ∈ es2, m.accepts e = true) →
        es2.length ≤ (serOccK (Comb.arr m) es2 k0).length := by
      intro es2
      induction es2 with
      | nil => intro _; simp [serOccK_arr_nil]
      | cons e2 r2 ih2 =>
        intro hacc2
        rw [serOccK_arr_cons _ _ _ _ (rigid_undefVal m hW.1 e2)]
        simp only [List.length_cons, List.length_append]
        have h1 := hanchor e2 (hacc2 e2 (by simp))
        have h2 := ih2 (fun x hx3 => hacc2 x (by simp [hx3]))
        omega
    have hfuel : es.length + 1 ≤ ctx.totalUnread + 1 := by
      have h1 := hocc es hacc
      have h2 : (serOccK (Comb.arr m) es k0).length = (ctx.unread k0).length := by
        rw [hx k0 hk0mem]
      have h3 := unread_length_le_totalUnread ctx k0
      omega
    obtain ⟨ctx2, hp, hA2, hB2⟩ :=
      arr_chain_exact m hW.1 hW.2 es ctx (ctx.totalUnread + 1) hacc hWF hx hfuel
    exact ⟨ctx2, hp, hA2, hB2⟩
  | pair f g ihf ihg =>
    intro hW v hA ctx hWF hx
    rw [Comb.wellKeyed, Bool.and_eq_true, Bool.and_eq_true] at hW
    rw [Comb.accepts, Bool.and_eq_true] at hA
    rcases Bool.or_eq_true_iff.mp hW.2 with hrig | hdisj
    · exact rigid_parse_robust (Comb.pair f g) (by rw [Comb.rigid]; exact hrig) v
        (by rw [Comb.accepts, Bool.and_eq_true]; exact hA) ctx hWF
        (robust_of_exact _ v ctx hx)
    · have hdis : ∀ k, k ∈ f.keys → k ∉ g.keys := by
        intro k hkf hkg
        have := List.all_eq_true.mp hdisj k hkf
        simp only [Bool.not_eq_true'] at this
        simp at this
        exact this hkg
      have hxf : ∀ k, k ∈ f.keys → ctx.unread k = serOccK f v.1 k := by
        intro k hkf
        have := hx k (by rw [Comb.keys]; exact List.mem_append.mpr (.inl hkf))
        rw [serOccK_pair, serOccK_eq_nil_of_not_mem g v.2 k (hdis k hkf),
          List.append_nil] at this
        exact this
      obtain ⟨ctx1, hp1, hA1, hB1⟩ := ihf hW.1.1 v.1 hA.1 ctx hWF hxf
      have hWF1 := WFc_after _ hWF hA1 hB1
      have hu1 := unread_after _ hWF hA1 hB1
      have hxg : ∀ k, k ∈ g.keys → ctx1.unread k = serOccK g v.2 k := by
        intro k hkg
        have hkf : k ∉ f.keys := fun hkf => hdis k hkf hkg
        have hfn : serOccK f v.1 k = [] := serOccK_eq_nil_of_not_mem f v.1 k hkf
        rw [hu1 k, hfn]
        simp only [List.length_nil, List.drop_zero]
        have := hx k (by rw [Comb.keys]; exact List.mem_append.mpr (.inr hkg))
        rw [serOccK_pair, hfn, List.nil_append] at this
        exact this
      obtain ⟨ctx2, hp2, hA2, hB2⟩ := ihg hW.1.2 v.2 hA.2 ctx1 hWF1 hxg
      refine ⟨ctx2, ?_, by rw [hA2, hA1], ?_⟩
      · show (ObjectParam2 f.denote g.denote).parse ctx = _
        rw [objectParam2_parse_eq _ _ _ _ _ hp1, hp2]
        show POut.ok ctx2 (Result.map (fun b => (v.1, b)) (.success v.2)) = _
        rw [Result.map]
      · intro k
        rw [hB2 k, hB1 k, optmap_add_comp, serOccK_pair]
        simp

/-! ## Claim C1 (round-trip law) -/

/-- C1 counterexample: the round-trip law as claimed fails for a
combinator-built Mapping and an accepted value.  In the object
`{a: OptionalParam(IntegerParam "k"), b: IntegerParam "k"}` both fields share
the key `k`; serializing the accepted value `(undefined, 1)` writes only
`k=1`, which the optional field then steals during parsing, leaving the
required field exhausted — the re-parse is an error, not `success (undefined, 1)`. -/
theorem roundtrip_counterexample :
    Comb.accepts (Comb.pair (Comb.opt (Comb.integer "k")) (Comb.integer "k"))
        (none, 1) = true ∧
    roundTripOk (Comb.pair (Comb.opt (Comb.integer "k")) (Comb.integer "k"))
        (none, 1) = false := by
  decide

/-- C1 amended: the round-trip law holds for every *well-keyed* combinator
tree (array elements are rigid and can fail; the fields of an object are
either all rigid or use disjoint key sets) and every accepted value:
serializing `v` into an empty accumulator and parsing the result succeeds
with payload exactly `v`. -/
theorem roundtrip_wellKeyed {T : Type} [DecidableEq T] (c : Comb T) (v : T)
    (hW : c.wellKeyed = true) (hA : c.accepts v = true) :
    (∃ ctx2, c.denote.parse
        (SearchParamContext.fromUrlSearchParams (c.denote.serialize v [])) =
      .ok ctx2 (.success v)) ∧
    roundTripOk c v = true := by
  have hx : ∀ k, k ∈ c.keys →
      (SearchParamContext.fromUrlSearchParams (c.denote.serialize v [])).unread k =
        serOccK c v k := by
    intro k _
    rw [unread_fromUrl]
    rfl
  obtain ⟨ctx2, hp, _, _⟩ := wellKeyed_parse_exact c hW v hA _ (WFc_fromUrl _) hx
  refine ⟨⟨ctx2, hp⟩, ?_⟩
  unfold roundTripOk
  rw [hp]
  simp

/-- C1 amended-theorem witness: a well-keyed object of a required integer
field `a` and an optional string field `b` round-trips the accepted value
`(5, some "x")`. -/
theorem roundtrip_wellKeyed_witness :
    (∃ ctx2, (Comb.pair (Comb.integer "a") (Comb.opt (Comb.str "b"))).denote.parse
        (SearchParamContext.fromUrlSearchParams
          ((Comb.pair (Comb.integer "a") (Comb.opt (Comb.str "b"))).denote.serialize
            (5, some "x") [])) =
      .ok ctx2 (.success (5, some "x"))) ∧
    roundTripOk (Comb.pair (Comb.integer "a") (Comb.opt (Comb.str "b"))) (5, some "x") = true :=
  roundtrip_wellKeyed (Comb.pair (Comb.integer "a") (Comb.opt (Comb.str "b")))
    (5, some "x") (by decide) (by decide)
